import Mathlib

/-!
Verification of the `agent_scheduler` package (`scripts/agent_scheduler/`):
a shallow embedding in Lean 4 of `task.py`, `gates.py`, `scheduler.py`
(class `PearceKellyScheduler`, namespace `PK` below) and
`scheduler_optimized.py` (class `PearceKellySchedulerOptimized`,
namespace `PKOpt` below), together with theorems settling the frozen
claims about the code.

Modelling conventions, used uniformly:

* A Python `dict` is an association list `List (String × α)` kept in
  insertion order; updating an existing key replaces its value in place,
  preserving its position (CPython semantics).  Lookup is `aget`, update
  is `aset`, iteration is list order.
* A Python `set` of strings is a duplicate-free `List String` kept in the
  order in which elements were inserted.  `set.add` is `sadd`,
  `set.discard` is `sdiscard`.  CPython's real iteration order over a
  set of strings is unspecified (hash randomisation); wherever the code
  iterates a set, the model iterates in insertion order, and the file
  notes the places where the result depends on that unspecified order.
* `datetime` values (`created_at`, `datetime.now()`) are abstract `Nat`
  timestamps in seconds; `timedelta(days=7)` is `604800`.  Functions that
  call `datetime.now()` take the current instant as an explicit `now`
  argument.
* `datetime.fromisoformat` (used only by `TimerGate`) is library code
  outside the repository; it is modelled by an abstract oracle
  `TimerOracle : String → Option Bool` giving for each gate id the
  parsed-and-compared result, `none` meaning a parse failure
  (`ValueError` in Python).  No claim depends on timer parsing.
* The schedulers are modelled with `github_client = None`, the default
  of both constructors, so the `gh:pr` gate degrades to closed.
* A raising Python method is modelled as returning
  `Scheduler × Except Err α`: the returned state is the instance state
  at the moment of the raise (Python mutates in place), the `Except`
  carries the result or the error.  Error payload strings are abbreviated.
-/

deriving instance DecidableEq for Except

namespace Grava

/-- Association-list lookup with default (`dict.get` / `d[k]` on a
`defaultdict`). -/
def aget (m : List (String × α)) (k : String) (d : α) : α :=
  match m with
  | [] => d
  | p :: rest => if p.1 == k then p.2 else aget rest k d

/-- Association-list update (`d[k] = v`): replaces in place, keeping the
key's original position, appending when the key is new. -/
def aset (m : List (String × α)) (k : String) (v : α) : List (String × α) :=
  match m with
  | [] => [(k, v)]
  | p :: rest => if p.1 == k then (k, v) :: rest else p :: aset rest k v

/-- `set.add`: append if absent. -/
def sadd (l : List String) (x : String) : List String :=
  if l.contains x then l else l ++ [x]

/-- `set.discard`: remove if present. -/
def sdiscard (l : List String) (x : String) : List String :=
  l.filter (fun y => y != x)

/-- `list(set(xs))` under the insertion-order convention: first
occurrences, in order. -/
def dedupL (l : List String) : List String :=
  l.foldl (fun acc x => if acc.contains x then acc else acc ++ [x]) []

/-- Insert `x` into `l` after every element `y` with `le y x`.  Used to
model Python's stable `list.sort`. -/
def insSorted (le : α → α → Bool) (x : α) : List α → List α
  | [] => [x]
  | y :: ys => if le y x then y :: insSorted le x ys else x :: y :: ys

/-- Stable sort by insertion (equal keys keep their original relative
order, as Python's Timsort guarantees; stable sorts under the same total
preorder agree, so this models `list.sort(key=...)` exactly). -/
def stableSortBy (le : α → α → Bool) (l : List α) : List α :=
  l.foldl (fun acc x => insSorted le x acc) []

/-- Total size of all adjacency lists; used only to provide sufficient
fuel for the worklist loops below. -/
def totalAdjLen (m : List (String × List String)) : Nat :=
  m.foldl (fun acc p => acc + p.2.length) 0

/-! ## Domain model (`task.py`) -/

/-- `TaskStatus` enum. -/
inductive TaskStatus
  | OPEN
  | BLOCKED
  | IN_PROGRESS
  | CLOSED
deriving DecidableEq, Repr

/-- `Priority` enum: 0 = CRITICAL (most urgent) … 4 = BACKLOG. -/
inductive Priority
  | CRITICAL
  | HIGH
  | MEDIUM
  | LOW
  | BACKLOG
deriving DecidableEq, Repr

/-- `Priority.value`. -/
def Priority.value : Priority → Nat
  | .CRITICAL => 0
  | .HIGH => 1
  | .MEDIUM => 2
  | .LOW => 3
  | .BACKLOG => 4

/-- Inverse of `Priority.value` on 0..4 (used by `Priority(new_value)`). -/
def Priority.ofValue : Nat → Priority
  | 0 => .CRITICAL
  | 1 => .HIGH
  | 2 => .MEDIUM
  | 3 => .LOW
  | _ => .BACKLOG

/-- `Priority.boost(levels)` = `Priority(max(0, value - levels))`;
`Nat` subtraction is exactly `max(0, ·-·)`. -/
def Priority.boost (p : Priority) (levels : Nat) : Priority :=
  Priority.ofValue (p.value - levels)

/-- The `Task` record.  `created_at` is an abstract timestamp; the
constructor's validation (`BAD_TASK` on empty name or non-positive
numbers) is not needed by any claim and is not modelled. -/
structure Task where
  name : String
  priority : Priority
  duration : Nat
  estimated_tokens : Nat
  used_tokens : Nat
  status : TaskStatus
  created_at : Nat
  await_type : Option String
  await_id : Option String
deriving DecidableEq, Repr

/-- `self.tasks[n]` as an `Option` (`dict` lookup by task name). -/
def findTask (tasks : List Task) (n : String) : Option Task :=
  tasks.find? (fun t => t.name == n)

/-- In-place status mutation of the task named `n`. -/
def setStatus (tasks : List Task) (n : String) (st : TaskStatus) : List Task :=
  tasks.map (fun t => if t.name == n then { t with status := st } else t)

/-- `self.tasks[p].status == TaskStatus.OPEN` guard used by the
in-degree computation. -/
def statusIsOpen (t : Option Task) : Bool :=
  match t with
  | some t => t.status == .OPEN
  | none => false

/-- The freshly counted effective in-degree of `n`: the number of its
predecessors whose status is OPEN (`get_indegree`'s cache-miss branch in
both scheduler classes). -/
def indegreeCount (tasks : List Task) (preds : List (String × List String))
    (n : String) : Nat :=
  ((aget preds n []).filter (fun p => statusIsOpen (findTask tasks p))).length

/-! ## Gates (`gates.py`) -/

/-- Gate-evaluation errors (`ValueError` kinds raised by `gates.py`). -/
inductive GateErr
  | BAD_GATE_ID
  | UNKNOWN_GATE_KIND
deriving DecidableEq, Repr

/-- Oracle for `TimerGate.is_open`: the result of parsing the id with
`datetime.fromisoformat` and comparing with `datetime.now()`; `none`
models a parse failure. -/
abbrev TimerOracle := String → Option Bool

/-- Python falsiness of an `Optional[str]`: `None` and `""` are falsy. -/
def optFalsy : Option String → Bool
  | none => true
  | some s => s.isEmpty

namespace GateEvaluator

/-- `GateEvaluator.is_open(await_type, await_id)`.  `approvals` is the
state of the composite evaluator's `HumanGate`; the GitHub client is
absent (constructor default), so the `gh:pr` branch returns `False`
before any parsing. -/
def is_open (oracle : TimerOracle) (approvals : List String)
    (ty id : Option String) : Except GateErr Bool :=
  if optFalsy ty || optFalsy id then .ok true
  else
    match ty with
    | some "timer" =>
      match oracle (id.getD "") with
      | some b => .ok b
      | none => .error .BAD_GATE_ID
    | some "human" => .ok (approvals.contains (id.getD ""))
    | some "gh:pr" => .ok false
    | _ => .error .UNKNOWN_GATE_KIND

end GateEvaluator

/-- Scheduler-level errors (`KeyError` / `ValueError` kinds raised by the
scheduler classes). -/
inductive SchedErr
  | NOT_FOUND (name : String)
  | SELF_LOOP (name : String)
  | CYCLE_DETECTED (path : List String)
  | DUPLICATE_NAME (name : String)
  | GATE (e : GateErr)
deriving DecidableEq, Repr

/-! ## Shared worklist loops

Both scheduler classes contain textually identical graph traversals;
they are modelled once, parameterised by the graph components.  All
loops take a fuel argument; callers pass fuel provably larger than the
number of iterations the Python loop can perform, so the fuel-exhausted
branch is unreachable (and the theorems below never depend on it). -/

/-- The body of `_get_affected_descendants`' `while stack:` loop
(`scheduler.py`): depth-first search along `adj`, collecting every
popped vertex and pushing unvisited neighbours of rank `≤ ub`.  The
model's stack has its head as the top (Python appends and pops at the
end); `adj[curr]` is a Python set, iterated here in insertion order. -/
def dfsDown (adj : List (String × List String)) (ranks : List (String × Nat))
    (ub : Nat) :
    Nat → List String → List String → List String → List String
  | 0, _, affected, _ => affected
  | _ + 1, [], affected, _ => affected
  | fuel + 1, curr :: stack, affected, visited =>
    let step := (aget adj curr []).foldl
      (fun (acc : List String × List String) nb =>
        if !(acc.2.contains nb) && decide (aget ranks nb 0 ≤ ub) then
          (nb :: acc.1, acc.2 ++ [nb])
        else acc)
      (stack, visited)
    dfsDown adj ranks ub fuel step.1 (affected ++ [curr]) step.2

/-- The body of `_get_affected_ancestors`' loop: identical to `dfsDown`
but walking `preds` and keeping vertices of rank `≥ lb`. -/
def dfsUp (preds : List (String × List String)) (ranks : List (String × Nat))
    (lb : Nat) :
    Nat → List String → List String → List String → List String
  | 0, _, affected, _ => affected
  | _ + 1, [], affected, _ => affected
  | fuel + 1, curr :: stack, affected, visited =>
    let step := (aget preds curr []).foldl
      (fun (acc : List String × List String) nb =>
        if !(acc.2.contains nb) && decide (lb ≤ aget ranks nb 0) then
          (nb :: acc.1, acc.2 ++ [nb])
        else acc)
      (stack, visited)
    dfsUp preds ranks lb fuel step.1 (affected ++ [curr]) step.2

/-- `δ⁺(start)` of §4.2: the full `_get_affected_descendants` call with
fuel covering every possible push (one per adjacency entry plus the
start vertex). -/
def affectedDown (adj : List (String × List String))
    (ranks : List (String × Nat)) (start : String) (ub : Nat) : List String :=
  dfsDown adj ranks ub (totalAdjLen adj + 2) [start] [] [start]

/-- `δ⁻(start)` of §4.2: the full `_get_affected_ancestors` call. -/
def affectedUp (preds : List (String × List String))
    (ranks : List (String × Nat)) (start : String) (lb : Nat) : List String :=
  dfsUp preds ranks lb (totalAdjLen preds + 2) [start] [] [start]

/-- The `while queue:` loop shared by `_subgraph_topological_sort`
(`scheduler.py`) and `_reorder_after_edge` (`scheduler_optimized.py`):
Kahn's algorithm confined to `subset`, FIFO queue, counters in `Int`
exactly as Python's unbounded ints (they can go negative when an edge
enters the subset from a vertex processed twice — they cannot here, but
the model keeps the type faithful). -/
def kahnLoop (adj : List (String × List String)) (subset : List String) :
    Nat → List String → List (String × Int) → List String → List String
  | 0, _, _, result => result
  | _ + 1, [], _, result => result
  | fuel + 1, u :: rest, indeg, result =>
    let step := (aget adj u []).foldl
      (fun (acc : List String × List (String × Int)) v =>
        if subset.contains v then
          let d := aget acc.2 v 0 - 1
          let m := aset acc.2 v d
          if d == 0 then (acc.1 ++ [v], m) else (acc.1, m)
        else acc)
      (rest, indeg)
    kahnLoop adj subset fuel step.1 step.2 (result ++ [u])

/-- BFS of `_reconstruct_cycle` (`scheduler.py`): finds a `dest ⇝ source`
path and returns it closed with `dest`; falls back to `[source, dest]`. -/
def cycleBfs (adj : List (String × List String)) (source dest : String) :
    Nat → List (String × List String) → List String → List String
  | 0, _, _ => [source, dest]
  | _ + 1, [], _ => [source, dest]
  | fuel + 1, (curr, path) :: rest, visited =>
    if curr == source then path ++ [dest]
    else
      let step := (aget adj curr []).foldl
        (fun (acc : List (String × List String) × List String) nb =>
          if acc.2.contains nb then acc
          else (acc.1 ++ [(nb, path ++ [nb])], acc.2 ++ [nb]))
        (rest, visited)
      cycleBfs adj source dest fuel step.1 step.2

/-- The BFS of `compute_effective_priority` (identical in both files):
walk `adj` from the task, at most `maxDepth` levels, taking the numeric
minimum of every visited dependent's priority value and traversing
onwards only through OPEN/BLOCKED dependents.  State: FIFO queue of
(name, depth), visited set, best value so far. -/
def effLoop (adj : List (String × List String)) (tasks : List Task)
    (maxDepth : Nat) :
    Nat → List (String × Nat) → List String → Nat → Nat
  | 0, _, _, best => best
  | _ + 1, [], _, best => best
  | fuel + 1, (curr, depth) :: rest, visited, best =>
    if decide (maxDepth ≤ depth) then
      effLoop adj tasks maxDepth fuel rest visited best
    else
      let step := (aget adj curr []).foldl
        (fun (acc : List (String × Nat) × List String × Nat) dep =>
          if acc.2.1.contains dep then acc
          else
            let vis := acc.2.1 ++ [dep]
            match findTask tasks dep with
            | none => (acc.1, vis, acc.2.2)
            | some dt =>
              let best := if decide (dt.priority.value < acc.2.2)
                          then dt.priority.value else acc.2.2
              if dt.status == .OPEN || dt.status == .BLOCKED then
                (acc.1 ++ [(dep, depth + 1)], vis, best)
              else (acc.1, vis, best))
        (rest, visited, best)
      effLoop adj tasks maxDepth fuel step.1 step.2.1 step.2.2

/-- Strict comparison of `heapq` entries `(priority.value, created_at,
name)`; `heapq.heappop` always extracts the lexicographically least
entry, and entry names are distinct, so modelling the heap as a list
popped by minimum is exact. -/
def tripLt (a b : Nat × Nat × String) : Bool :=
  decide (a.1 < b.1) ||
    (a.1 == b.1 && (decide (a.2.1 < b.2.1) ||
      (a.2.1 == b.2.1 && decide (a.2.2 < b.2.2))))

/-- Pop the minimum entry of the modelled heap (earliest position wins
ties, which cannot arise: names are unique). -/
def heapPopMin : List (Nat × Nat × String) →
    Option ((Nat × Nat × String) × List (Nat × Nat × String))
  | [] => none
  | x :: xs =>
    match heapPopMin xs with
    | none => some (x, [])
    | some (m, rest) => if tripLt m x then some (m, x :: rest) else some (x, xs)

/-- One neighbour visit of `topological_sort`'s main loop (identical in
both files): decrement `temp_in_degree[nb]`, and when it reaches exactly
0, push `(priority.value, created_at, nb)`. -/
def topoPush (tasks : List Task)
    (acc : List (Nat × Nat × String) × List (String × Int)) (nb : String) :
    List (Nat × Nat × String) × List (String × Int) :=
  let d := aget acc.2 nb 0 - 1
  let m := aset acc.2 nb d
  if d == 0 then
    match findTask tasks nb with
    | some nt => (acc.1 ++ [(nt.priority.value, nt.created_at, nb)], m)
    | none => (acc.1, m)
  else (acc.1, m)

/-- Neighbour pass of `topological_sort`'s main loop: `topoPush` folded
over the popped vertex's successors. -/
def topoStep (tasks : List Task) (l : List String)
    (pq : List (Nat × Nat × String)) (temp : List (String × Int)) :
    List (Nat × Nat × String) × List (String × Int) :=
  l.foldl (topoPush tasks) (pq, temp)

/-- The `while pq:` loop of `topological_sort` (identical in both
files). -/
def topoLoopG (tasks : List Task) (adj : List (String × List String)) :
    Nat → List (Nat × Nat × String) → List (String × Int) → List String →
    List String
  | 0, _, _, res => res
  | fuel + 1, pq, temp, res =>
    match heapPopMin pq with
    | none => res
    | some (t, pq') =>
      let step := topoStep tasks (aget adj t.2.2 []) pq' temp
      topoLoopG tasks adj fuel step.1 step.2 (res ++ [t.2.2])

/-- One step of the initial-frontier fold of `topological_sort`: push
the task's `(priority.value, created_at, name)` key when its
`temp_in_degree` is 0. -/
def pqFoldStep (temp : List (String × Int)) (pq : List (Nat × Nat × String))
    (t : Task) : List (Nat × Nat × String) :=
  if aget temp t.name 0 == 0 then pq ++ [(t.priority.value, t.created_at, t.name)]
  else pq

/-- One entry of the serialized schedule produced by
`PK.calculate_schedule` (`status` is serialized as `status.value`; the
enum itself is kept here). -/
structure ScheduleEntry where
  task_name : String
  start_time : Nat
  end_time : Nat
  duration : Nat
  priority : Nat
  estimated_tokens : Nat
  status : TaskStatus
deriving DecidableEq, Repr

/-- Sort key order of the ready list: `(effective_priority.value,
created_at)`, lexicographic. -/
def pairLe (p q : Nat × Nat) : Bool :=
  decide (p.1 < q.1) || (p.1 == q.1 && decide (p.2 ≤ q.2))

/-- Ready-triple sort key. -/
def readyKey (x : Task × Priority × Bool) : Nat × Nat :=
  (x.2.1.value, x.1.created_at)

/-- Schedule-entry sort key `(start_time, priority)`. -/
def schedKey (e : ScheduleEntry) : Nat × Nat :=
  (e.start_time, e.priority)

/-! ## `scheduler.py` — class `PearceKellyScheduler` -/

namespace PK

open Grava

/-- Instance state of `PearceKellyScheduler`.  `approvals` is the state
of `self.gate_evaluator.human_gate`; the trailing fields are the
constructor's configuration arguments with their default values. -/
structure Scheduler where
  tasks : List Task
  adj : List (String × List String)
  preds : List (String × List String)
  ranks : List (String × Nat)
  indegree_cache : List (String × Nat)
  indegree_valid : List String
  approvals : List String
  enable_priority_inheritance : Bool
  priority_inheritance_depth : Nat
  aging_threshold : Nat
  aging_boost : Nat
deriving DecidableEq, Repr

/-- A scheduler constructed with all constructor defaults
(`aging_threshold = timedelta(days=7)` = 604800 s). -/
def init : Scheduler :=
  { tasks := [], adj := [], preds := [], ranks := [],
    indegree_cache := [], indegree_valid := [], approvals := [],
    enable_priority_inheritance := true, priority_inheritance_depth := 10,
    aging_threshold := 604800, aging_boost := 1 }

/-- `register_task`. -/
def register_task (s : Scheduler) (t : Task) : Scheduler × Except SchedErr Unit :=
  if (findTask s.tasks t.name).isSome then (s, .error (.DUPLICATE_NAME t.name))
  else
    let s1 := { s with tasks := s.tasks ++ [t],
                       adj := aset s.adj t.name [],
                       preds := aset s.preds t.name [] }
    let s2 := { s1 with ranks := aset s1.ranks t.name (s1.tasks.length - 1) }
    ({ s2 with indegree_cache := aset s2.indegree_cache t.name 0,
               indegree_valid := sadd s2.indegree_valid t.name }, .ok ())

/-- `get_indegree` (the `KeyError` on an unregistered name is omitted:
every internal call site passes a registered name, and the public claims
only exercise those). -/
def get_indegree (s : Scheduler) (n : String) : Scheduler × Nat :=
  if s.indegree_valid.contains n then (s, aget s.indegree_cache n 0)
  else
    let d := indegreeCount s.tasks s.preds n
    ({ s with indegree_cache := aset s.indegree_cache n d,
              indegree_valid := sadd s.indegree_valid n }, d)

/-- `_invalidate_indegree`: drop `n` and all of its successors from the
valid set. -/
def invalidate_indegree (s : Scheduler) (n : String) : Scheduler :=
  let v := (aget s.adj n []).foldl (fun v succ => sdiscard v succ)
    (sdiscard s.indegree_valid n)
  { s with indegree_valid := v }

/-- `_update_task_status`: recompute BLOCKED/OPEN from the in-degree and
gate; a gate `ValueError` propagates after the in-degree cache write. -/
def update_task_status (oracle : TimerOracle) (s : Scheduler) (n : String) :
    Scheduler × Except GateErr Unit :=
  match findTask s.tasks n with
  | none => (s, .ok ())
  | some t =>
    if t.status == .CLOSED then (s, .ok ())
    else
      let r := get_indegree s n
      match GateEvaluator.is_open oracle r.1.approvals t.await_type t.await_id with
      | .error e => (r.1, .error e)
      | .ok g =>
        if decide (0 < r.2) || !g then
          (if t.status != .BLOCKED
           then { r.1 with tasks := setStatus r.1.tasks n .BLOCKED } else r.1,
           .ok ())
        else
          (if t.status == .BLOCKED
           then { r.1 with tasks := setStatus r.1.tasks n .OPEN } else r.1,
           .ok ())

/-- `_get_affected_descendants(start, upper_bound)`. -/
def get_affected_descendants (s : Scheduler) (start : String) (ub : Nat) :
    List String :=
  affectedDown s.adj s.ranks start ub

/-- `_get_affected_ancestors(start, lower_bound)`. -/
def get_affected_ancestors (s : Scheduler) (start : String) (lb : Nat) :
    List String :=
  affectedUp s.preds s.ranks start lb

/-- `_reconstruct_cycle`. -/
def reconstruct_cycle (s : Scheduler) (source dest : String) : List String :=
  cycleBfs s.adj source dest (totalAdjLen s.adj + 2) [(dest, [dest])] [dest]

/-- `_subgraph_topological_sort(subset_tasks)`: Kahn's algorithm on the
induced subgraph.  `set(subset_tasks)` and the queue comprehension
iterate a Python set of strings, whose order is unspecified; the model
iterates in insertion order of `subset_tasks` (its first occurrences).
The theorems that depend on this note it explicitly. -/
def subgraph_topological_sort (s : Scheduler) (subset_tasks : List String) :
    List String :=
  let subset := dedupL subset_tasks
  let indeg := subset.foldl (fun m t =>
      (aget s.adj t []).foldl (fun m nb =>
        if subset.contains nb then aset m nb (aget m nb 0 + 1) else m) m)
    (subset.map (fun t => (t, (0 : Int))))
  let queue := subset.filter (fun t => aget indeg t 0 == 0)
  kahnLoop s.adj subset (subset.length + 1) queue indeg []

/-- `_reorder(ancestors, descendants)`: sort the affected vertices by
current rank, topologically re-sort the induced subgraph, and map the
new order back onto the previously occupied rank slots; finally drop
the affected vertices from the in-degree valid set. -/
def reorder (s : Scheduler) (ancestors descendants : List String) : Scheduler :=
  let affected := stableSortBy
    (fun a b => decide (aget s.ranks a 0 ≤ aget s.ranks b 0))
    (dedupL (ancestors ++ descendants))
  let available := affected.map (fun t => aget s.ranks t 0)
  let new_order := subgraph_topological_sort s affected
  { s with
    ranks := (new_order.zip available).foldl (fun r p => aset r p.1 p.2) s.ranks,
    indegree_valid := affected.foldl (fun v t => sdiscard v t) s.indegree_valid }

/-- Re-raise a gate `ValueError` out of a scheduler method, or report
the `True` result of a successful edge mutation. -/
def wrapGate (z : Scheduler × Except GateErr Unit) : Scheduler × Except SchedErr Bool :=
  match z with
  | (s, .error e) => (s, .error (.GATE e))
  | (s, .ok _) => (s, .ok true)

/-- The common tail of both `add_dependency` branches in `scheduler.py`:
insert the edge into `adj`/`preds`, invalidate the destination's
in-degree, and refresh its status. -/
def finishEdge (oracle : TimerOracle) (s : Scheduler) (source dest : String) :
    Scheduler × Except SchedErr Bool :=
  let s1 := { s with adj := aset s.adj source (sadd (aget s.adj source []) dest),
                     preds := aset s.preds dest (sadd (aget s.preds dest []) source) }
  wrapGate (update_task_status oracle (invalidate_indegree s1 dest) dest)

/-- `add_dependency(source, dest)`. -/
def add_dependency (oracle : TimerOracle) (s : Scheduler) (source dest : String) :
    Scheduler × Except SchedErr Bool :=
  if !(findTask s.tasks source).isSome || !(findTask s.tasks dest).isSome then
    (s, .error (.NOT_FOUND source))
  else if source == dest then (s, .error (.SELF_LOOP source))
  else if (aget s.adj source []).contains dest then (s, .ok true)
  else if decide (aget s.ranks source 0 < aget s.ranks dest 0) then
    finishEdge oracle s source dest
  else
    let descendants := get_affected_descendants s dest (aget s.ranks source 0)
    if descendants.contains source then
      (s, .error (.CYCLE_DETECTED (reconstruct_cycle s source dest)))
    else
      let ancestors := get_affected_ancestors s source (aget s.ranks dest 0)
      finishEdge oracle (reorder s ancestors descendants) source dest

/-- `remove_dependency(source, dest)`. -/
def remove_dependency (oracle : TimerOracle) (s : Scheduler) (source dest : String) :
    Scheduler × Except SchedErr Bool :=
  if !(findTask s.tasks source).isSome || !(findTask s.tasks dest).isSome then
    (s, .error (.NOT_FOUND source))
  else if !((aget s.adj source []).contains dest) then (s, .ok false)
  else
    let s1 := { s with adj := aset s.adj source (sdiscard (aget s.adj source []) dest),
                       preds := aset s.preds dest (sdiscard (aget s.preds dest []) source) }
    wrapGate (update_task_status oracle (invalidate_indegree s1 dest) dest)

/-- `compute_effective_priority(task_name)` (uncached in this class). -/
def compute_effective_priority (s : Scheduler) (n : String) : Priority :=
  match findTask s.tasks n with
  | none => .MEDIUM
  | some t =>
    if !s.enable_priority_inheritance then t.priority
    else
      Priority.ofValue (effLoop s.adj s.tasks s.priority_inheritance_depth
        (totalAdjLen s.adj + s.tasks.length + 2) [(n, 0)] [n] t.priority.value)

/-- The `for task_name, task in self.tasks.items():` loop of
`compute_ready_tasks`, threading the in-degree cache writes and the
possible gate `ValueError`. -/
def readyLoop (oracle : TimerOracle) (now : Nat) :
    Scheduler → List Task → List (Task × Priority × Bool) →
    Scheduler × Except GateErr (List (Task × Priority × Bool))
  | s, [], acc => (s, .ok acc)
  | s, t :: rest, acc =>
    if t.status != .OPEN then readyLoop oracle now s rest acc
    else
      let r := get_indegree s t.name
      if decide (0 < r.2) then readyLoop oracle now r.1 rest acc
      else
        match GateEvaluator.is_open oracle r.1.approvals t.await_type t.await_id with
        | .error e => (r.1, .error e)
        | .ok g =>
          if !g then readyLoop oracle now r.1 rest acc
          else
            let eff := compute_effective_priority r.1 t.name
            let boosted := decide (eff.value < t.priority.value)
            let p := if decide (r.1.aging_threshold ≤ now - t.created_at)
                        && decide (0 < eff.value)
                     then (eff.boost r.1.aging_boost, true) else (eff, boosted)
            readyLoop oracle now r.1 rest (acc ++ [(t, p.1, p.2)])

/-- `compute_ready_tasks(limit)`: collect the ready triples in task
iteration order, stable-sort by `(effective_priority.value,
created_at)`, truncate to `limit` when positive. -/
def compute_ready_tasks (oracle : TimerOracle) (now : Nat) (s : Scheduler)
    (limit : Nat) :
    Scheduler × Except GateErr (List (Task × Priority × Bool)) :=
  match readyLoop oracle now s s.tasks [] with
  | (s1, .error e) => (s1, .error e)
  | (s1, .ok l) =>
    let l := stableSortBy (fun a b => pairLe (readyKey a) (readyKey b)) l
    (s1, .ok (if decide (0 < limit) then l.take limit else l))

/-- `topological_sort()`: priority-keyed Kahn sweep.  The dictionary
comprehension calls `get_indegree` on every task (threading the cache),
the initial frontier collects the tasks of `temp_in_degree` 0 keyed by
`(priority.value, created_at, name)`, and the main loop is
`topoLoopG`. -/
def indegFoldStep (acc : Scheduler × List (String × Int)) (t : Task) :
    Scheduler × List (String × Int) :=
  let r := get_indegree acc.1 t.name
  (r.1, acc.2 ++ [(t.name, (r.2 : Int))])

/-- `topological_sort()`'s body: the dictionary comprehension threading
`get_indegree`'s cache writes, the initial frontier, and the main
loop. -/
def topological_sort (s : Scheduler) : Scheduler × List String :=
  let z := s.tasks.foldl indegFoldStep (s, [])
  let pq := z.1.tasks.foldl (pqFoldStep z.2) []
  (z.1, topoLoopG z.1.tasks z.1.adj (z.1.tasks.length + 1) pq z.2 [])

/-- `earliest_start[neighbor] = max(earliest_start[neighbor], end)`:
the key is always present in the verified domain (Python raises
`KeyError` otherwise); a missing key is left untouched here. -/
def bumpStart (es : List (String × Nat)) (k : String) (v : Nat) :
    List (String × Nat) :=
  es.map (fun p => if p.1 == k then (k, max p.2 v) else p)

/-- `calculate_schedule()`: walk the topological order accumulating
entries, the token total, and the earliest-start map; finally
stable-sort the entries by `(start_time, priority)`.  The result models
the JSON object: the entry list, `total_projected_tokens`, and
`task_count = entries.length`. -/
def schedStep (tasks : List Task) (adj : List (String × List String))
    (acc : List ScheduleEntry × Nat × List (String × Nat)) (n : String) :
    List ScheduleEntry × Nat × List (String × Nat) :=
  match findTask tasks n with
  | none => acc
  | some t =>
    let st := aget acc.2.2 n 0
    let en := st + t.duration
    let entry : ScheduleEntry :=
      { task_name := t.name, start_time := st, end_time := en,
        duration := t.duration, priority := t.priority.value,
        estimated_tokens := t.estimated_tokens, status := t.status }
    (acc.1 ++ [entry], acc.2.1 + t.estimated_tokens,
     (aget adj n []).foldl (fun es nb => bumpStart es nb en) acc.2.2)

/-- `calculate_schedule()`'s loop body over the topological order. -/
def calculate_schedule (s : Scheduler) : Scheduler × List ScheduleEntry × Nat :=
  let z := topological_sort s
  let acc := z.2.foldl (schedStep z.1.tasks z.1.adj)
    ([], 0, z.2.map (fun n => (n, 0)))
  (z.1, stableSortBy (fun a b => pairLe (schedKey a) (schedKey b)) acc.1, acc.2.1)

end PK

/-! ## `scheduler_optimized.py` — class `PearceKellySchedulerOptimized` -/

namespace PKOpt

open Grava

/-- Instance state of `PearceKellySchedulerOptimized`: the base state
plus the ready-set cache, the effective-priority cache, and the dirty
set.  `ready_cache_ttl` defaults to 60 seconds. -/
structure Scheduler where
  tasks : List Task
  adj : List (String × List String)
  preds : List (String × List String)
  ranks : List (String × Nat)
  indegree_cache : List (String × Nat)
  indegree_valid : List String
  ready_set : List String
  ready_valid : Bool
  ready_computed_at : Option Nat
  ready_cache_ttl : Nat
  priority_cache : List (String × Priority)
  priority_valid : List String
  dirty_tasks : List String
  approvals : List String
  enable_priority_inheritance : Bool
  priority_inheritance_depth : Nat
  aging_threshold : Nat
  aging_boost : Nat
deriving DecidableEq, Repr

/-- A scheduler constructed with all constructor defaults. -/
def init : Scheduler :=
  { tasks := [], adj := [], preds := [], ranks := [],
    indegree_cache := [], indegree_valid := [],
    ready_set := [], ready_valid := false, ready_computed_at := none,
    ready_cache_ttl := 60, priority_cache := [], priority_valid := [],
    dirty_tasks := [], approvals := [],
    enable_priority_inheritance := true, priority_inheritance_depth := 10,
    aging_threshold := 604800, aging_boost := 1 }

/-- `get_indegree` (this class performs no existence check). -/
def get_indegree (s : Scheduler) (n : String) : Scheduler × Nat :=
  if s.indegree_valid.contains n then (s, aget s.indegree_cache n 0)
  else
    let d := indegreeCount s.tasks s.preds n
    ({ s with indegree_cache := aset s.indegree_cache n d,
              indegree_valid := sadd s.indegree_valid n }, d)

/-- `_invalidate_indegree`. -/
def invalidate_indegree (s : Scheduler) (n : String) : Scheduler :=
  let v := (aget s.adj n []).foldl (fun v succ => sdiscard v succ)
    (sdiscard s.indegree_valid n)
  { s with indegree_valid := v }

/-- `_invalidate_ready_cache`. -/
def invalidate_ready_cache (s : Scheduler) : Scheduler :=
  { s with ready_valid := false }

/-- `_invalidate_priority_cache(task_name)`: drop the task and all of
its predecessors from the priority valid set. -/
def invalidate_priority_cache (s : Scheduler) (n : String) : Scheduler :=
  let v := (aget s.preds n []).foldl (fun v p => sdiscard v p)
    (sdiscard s.priority_valid n)
  { s with priority_valid := v }

/-- `_check_and_add_to_ready(task_name)`: local ready probe; a gate
`ValueError` propagates. -/
def check_and_add_to_ready (oracle : TimerOracle) (s : Scheduler) (n : String) :
    Scheduler × Except GateErr Unit :=
  match findTask s.tasks n with
  | none => (s, .ok ())
  | some t =>
    if t.status != .OPEN then
      ({ s with ready_set := sdiscard s.ready_set n }, .ok ())
    else
      let r := get_indegree s n
      if decide (0 < r.2) then
        ({ r.1 with ready_set := sdiscard r.1.ready_set n }, .ok ())
      else
        match GateEvaluator.is_open oracle r.1.approvals t.await_type t.await_id with
        | .error e => (r.1, .error e)
        | .ok g =>
          if !g then ({ r.1 with ready_set := sdiscard r.1.ready_set n }, .ok ())
          else ({ r.1 with ready_set := sadd r.1.ready_set n }, .ok ())

/-- `register_task`: as the base class, then a ready probe for OPEN
tasks and an unconditional ready-cache invalidation. -/
def register_task (oracle : TimerOracle) (s : Scheduler) (t : Task) :
    Scheduler × Except SchedErr Unit :=
  if (findTask s.tasks t.name).isSome then (s, .error (.DUPLICATE_NAME t.name))
  else
    let s1 := { s with tasks := s.tasks ++ [t],
                       adj := aset s.adj t.name [],
                       preds := aset s.preds t.name [] }
    let s2 := { s1 with ranks := aset s1.ranks t.name (s1.tasks.length - 1) }
    let s3 := { s2 with indegree_cache := aset s2.indegree_cache t.name 0,
                        indegree_valid := sadd s2.indegree_valid t.name }
    if t.status == .OPEN then
      match check_and_add_to_ready oracle s3 t.name with
      | (s4, .error e) => (s4, .error (.GATE e))
      | (s4, .ok _) => (invalidate_ready_cache s4, .ok ())
    else (invalidate_ready_cache s3, .ok ())

/-- `_update_task_status`: as the base class, then ready-set maintenance
when the status actually changed. -/
def update_task_status (oracle : TimerOracle) (s : Scheduler) (n : String) :
    Scheduler × Except GateErr Unit :=
  match findTask s.tasks n with
  | none => (s, .ok ())
  | some t =>
    if t.status == .CLOSED then (s, .ok ())
    else
      let r := get_indegree s n
      match GateEvaluator.is_open oracle r.1.approvals t.await_type t.await_id with
      | .error e => (r.1, .error e)
      | .ok g =>
        let newSt := if decide (0 < r.2) || !g then TaskStatus.BLOCKED
                     else if t.status == .BLOCKED then TaskStatus.OPEN
                     else t.status
        if t.status != newSt then
          let s1 := { r.1 with tasks := setStatus r.1.tasks n newSt }
          if newSt == .OPEN then
            match check_and_add_to_ready oracle s1 n with
            | (s2, .error e) => (s2, .error e)
            | (s2, .ok _) => (invalidate_ready_cache s2, .ok ())
          else
            (invalidate_ready_cache
              { s1 with ready_set := sdiscard s1.ready_set n }, .ok ())
        else (r.1, .ok ())

/-- `_would_create_cycle(source, dest)`: plain DFS from `dest` along
`adj` looking for `source`; the visited check happens after the pop, and
neighbours are pushed unconditionally (`stack.extend`), so the model
pushes the reversed adjacency list onto the head-is-top stack. -/
def wouldCycleLoop (adj : List (String × List String)) (source : String) :
    Nat → List String → List String → Bool
  | 0, _, _ => false
  | _ + 1, [], _ => false
  | fuel + 1, curr :: rest, visited =>
    if curr == source then true
    else if visited.contains curr then wouldCycleLoop adj source fuel rest visited
    else wouldCycleLoop adj source fuel ((aget adj curr []).reverse ++ rest)
      (visited ++ [curr])

/-- `_would_create_cycle`. -/
def would_create_cycle (s : Scheduler) (source dest : String) : Bool :=
  wouldCycleLoop s.adj source (totalAdjLen s.adj + s.tasks.length + 2) [dest] []

/-- Parent-pointer walk of `_reconstruct_cycle`'s inner `while` loop. -/
def parentWalk (parent : List (String × String)) (dest : String) :
    Nat → String → List String → List String
  | 0, _, path => path
  | fuel + 1, node, path =>
    if node == dest then path
    else
      let nxt := aget parent node ""
      parentWalk parent dest fuel nxt (path ++ [nxt])

/-- DFS of `_reconstruct_cycle` (`scheduler_optimized.py`): records
parent pointers, then walks them from `source` back to `dest`. -/
def cycleDfs (adj : List (String × List String)) (source dest : String) :
    Nat → List String → List String → List (String × String) → List String
  | 0, _, _, _ => [source, dest, source]
  | _ + 1, [], _, _ => [source, dest, source]
  | fuel + 1, curr :: rest, visited, parent =>
    if curr == source then
      (parentWalk parent dest (fuel + 1) source [source]) ++ [source]
    else if visited.contains curr then cycleDfs adj source dest fuel rest visited parent
    else
      let step := (aget adj curr []).foldl
        (fun (acc : List String × List (String × String)) nb =>
          if (visited ++ [curr]).contains nb then acc
          else (nb :: acc.1, aset acc.2 nb curr))
        (rest, parent)
      cycleDfs adj source dest fuel step.1 (visited ++ [curr]) step.2

/-- `_reconstruct_cycle`. -/
def reconstruct_cycle (s : Scheduler) (source dest : String) : List String :=
  cycleDfs s.adj source dest (totalAdjLen s.adj + s.tasks.length + 2) [dest] [] []

/-- `_handle_edge_addition(source, dest)` (the source argument is
unused by the Python body as well). -/
def handle_edge_addition (s : Scheduler) (_source dest : String) : Scheduler :=
  let s1 := { s with ready_set := sdiscard s.ready_set dest }
  let s2 := { s1 with dirty_tasks :=
    (aget s1.adj dest []).foldl sadd (sadd s1.dirty_tasks dest) }
  invalidate_ready_cache (invalidate_priority_cache s2 dest)

/-- `_reorder_after_edge(source, dest)`: collect every task whose rank
lies in `[ranks[dest], ranks[source]]`, Kahn-sort that induced subgraph
(the new edge is already present), and reassign the consecutive ranks
starting at `ranks[dest]`. -/
def reorder_after_edge (s : Scheduler) (source dest : String) : Scheduler :=
  let lo := aget s.ranks dest 0
  let hi := aget s.ranks source 0
  let affected := stableSortBy
    (fun a b => decide (aget s.ranks a 0 ≤ aget s.ranks b 0))
    ((s.tasks.map Task.name).filter
      (fun n => decide (lo ≤ aget s.ranks n 0) && decide (aget s.ranks n 0 ≤ hi)))
  let indeg := affected.foldl (fun m n =>
      (aget s.preds n []).foldl (fun m p =>
        if affected.contains p then aset m n (aget m n 0 + 1) else m) m)
    (affected.map (fun n => (n, (0 : Int))))
  let queue := affected.filter (fun n => aget indeg n 0 == 0)
  let new_order := kahnLoop s.adj affected (affected.length + 1) queue indeg []
  { s with ranks :=
      ((new_order.zip (List.range new_order.length)).foldl
        (fun r p => aset r p.1 (lo + p.2)) s.ranks) }

/-- `add_dependency(source, dest)`: duplicate edges return `False`; the
cycle check runs only when `ranks[source] > ranks[dest]`; the rank
reorder runs after the edge insertion and the cache maintenance. -/
def add_dependency (oracle : TimerOracle) (s : Scheduler) (source dest : String) :
    Scheduler × Except SchedErr Bool :=
  if !(findTask s.tasks source).isSome then (s, .error (.NOT_FOUND source))
  else if !(findTask s.tasks dest).isSome then (s, .error (.NOT_FOUND dest))
  else if (aget s.adj source []).contains dest then (s, .ok false)
  else if decide (aget s.ranks dest 0 < aget s.ranks source 0)
          && would_create_cycle s source dest then
    (s, .error (.CYCLE_DETECTED (reconstruct_cycle s source dest)))
  else
    let s1 := { s with adj := aset s.adj source (sadd (aget s.adj source []) dest),
                       preds := aset s.preds dest (sadd (aget s.preds dest []) source) }
    let s2 := invalidate_indegree s1 dest
    match update_task_status oracle s2 dest with
    | (s3, .error e) => (s3, .error (.GATE e))
    | (s3, .ok _) =>
      let s4 := handle_edge_addition s3 source dest
      let s5 := if decide (aget s4.ranks dest 0 < aget s4.ranks source 0)
                then reorder_after_edge s4 source dest else s4
      (s5, .ok true)

/-- `compute_effective_priority(task_name)`: the base-class BFS behind a
memo cache. -/
def compute_effective_priority (s : Scheduler) (n : String) : Scheduler × Priority :=
  if s.priority_valid.contains n then (s, aget s.priority_cache n .MEDIUM)
  else
    match findTask s.tasks n with
    | none => (s, .MEDIUM)
    | some t =>
      let p := if !s.enable_priority_inheritance then t.priority
               else
                 Priority.ofValue (effLoop s.adj s.tasks s.priority_inheritance_depth
                   (totalAdjLen s.adj + s.tasks.length + 2) [(n, 0)] [n]
                   t.priority.value)
      ({ s with priority_cache := aset s.priority_cache n p,
                priority_valid := sadd s.priority_valid n }, p)

/-- The `for task_name in self.tasks:` loop of `_rebuild_ready_set`. -/
def rebuildLoop (oracle : TimerOracle) :
    Scheduler → List String → Scheduler × Except GateErr Unit
  | s, [] => (s, .ok ())
  | s, n :: rest =>
    match check_and_add_to_ready oracle s n with
    | (s1, .error e) => (s1, .error e)
    | (s1, .ok _) => rebuildLoop oracle s1 rest

/-- `_rebuild_ready_set()`. -/
def rebuild_ready_set (oracle : TimerOracle) (now : Nat) (s : Scheduler) :
    Scheduler × Except GateErr Unit :=
  let s0 := { s with ready_set := [] }
  match rebuildLoop oracle s0 (s0.tasks.map Task.name) with
  | (s1, .error e) => (s1, .error e)
  | (s1, .ok _) =>
    ({ s1 with ready_valid := true, ready_computed_at := some now,
               dirty_tasks := [] }, .ok ())

/-- `_is_ready_cache_stale()`. -/
def is_ready_cache_stale (now : Nat) (s : Scheduler) : Bool :=
  if !s.ready_valid then true
  else if s.ready_cache_ttl == 0 then false
  else
    match s.ready_computed_at with
    | none => true
    | some t0 => decide (s.ready_cache_ttl < now - t0)

/-- The `for task_name in self._ready_set:` loop of
`compute_ready_tasks`; the ready set is iterated in insertion order
(unspecified in Python, irrelevant after the final sort except for
ties).  Members of the ready set are always registered, so the
`KeyError` lookup cannot fail. -/
def readyCollect (now : Nat) :
    Scheduler → List String → List (Task × Priority × Bool) →
    Scheduler × List (Task × Priority × Bool)
  | s, [], acc => (s, acc)
  | s, n :: rest, acc =>
    match findTask s.tasks n with
    | none => (s, acc)
    | some t =>
      let r := compute_effective_priority s n
      let boosted := decide (r.2.value < t.priority.value)
      let p := if decide (r.1.aging_threshold ≤ now - t.created_at)
                  && decide (0 < r.2.value)
               then (r.2.boost r.1.aging_boost, true) else (r.2, boosted)
      readyCollect now r.1 rest (acc ++ [(t, p.1, p.2)])

/-- `compute_ready_tasks(limit)`: rebuild the ready set if invalid or
stale, then collect, stable-sort, truncate. -/
def compute_ready_tasks (oracle : TimerOracle) (now : Nat) (s : Scheduler)
    (limit : Nat) :
    Scheduler × Except GateErr (List (Task × Priority × Bool)) :=
  let step := if !s.ready_valid || is_ready_cache_stale now s
              then rebuild_ready_set oracle now s else (s, .ok ())
  match step with
  | (s1, .error e) => (s1, .error e)
  | (s1, .ok _) =>
    let c := readyCollect now s1 s1.ready_set []
    let l := stableSortBy (fun a b => pairLe (readyKey a) (readyKey b)) c.2
    (c.1, .ok (if decide (0 < limit) then l.take limit else l))

/-- `GateEvaluator.approve_human_gate(await_id)` reached through
`self.gate_evaluator`: pure gate-state mutation, no scheduler cache is
touched. -/
def approve_human_gate (s : Scheduler) (id : String) : Scheduler :=
  { s with approvals := sadd s.approvals id }

/-- `GateEvaluator.revoke_human_gate(await_id)`. -/
def revoke_human_gate (s : Scheduler) (id : String) : Scheduler :=
  { s with approvals := sdiscard s.approvals id }

/-- `topological_sort()`: textually identical to the base class. -/
def indegFoldStep (acc : Scheduler × List (String × Int)) (t : Task) :
    Scheduler × List (String × Int) :=
  let r := get_indegree acc.1 t.name
  (r.1, acc.2 ++ [(t.name, (r.2 : Int))])

/-- `topological_sort()`'s body: the dictionary comprehension threading
`get_indegree`'s cache writes, the initial frontier, and the main
loop. -/
def topological_sort (s : Scheduler) : Scheduler × List String :=
  let z := s.tasks.foldl indegFoldStep (s, [])
  let pq := z.1.tasks.foldl (pqFoldStep z.2) []
  (z.1, topoLoopG z.1.tasks z.1.adj (z.1.tasks.length + 1) pq z.2 [])

end PKOpt

/-! ## Specification-side predicates and loop decompositions -/

/-- Well-formedness of the graph components, as Python's bookkeeping
guarantees for every reachable scheduler state: unique task names,
unique dictionary keys, duplicate-free adjacency sets, every edge
endpoint registered, and `adj`/`preds` mirror images of each other. -/
def GraphWF (tasks : List Task) (adj preds : List (String × List String)) : Prop :=
  (tasks.map Task.name).Nodup ∧
  (adj.map Prod.fst).Nodup ∧
  (preds.map Prod.fst).Nodup ∧
  (∀ p ∈ adj, p.2.Nodup) ∧
  (∀ q ∈ preds, q.2.Nodup) ∧
  (∀ p ∈ adj, ∀ v ∈ p.2, p.1 ∈ tasks.map Task.name ∧ v ∈ tasks.map Task.name ∧
    p.1 ∈ aget preds v []) ∧
  (∀ q ∈ preds, ∀ u ∈ q.2, q.1 ∈ aget adj u [])

/-- Coherence of the in-degree cache (spec P7): every entry marked valid
holds the freshly counted value. -/
def CacheOK (tasks : List Task) (preds : List (String × List String))
    (cache : List (String × Nat)) (valid : List String) : Prop :=
  ∀ n ∈ valid, aget cache n 0 = indegreeCount tasks preds n

/-- What `topoPush` appends to the heap for neighbour `nb`. -/
def pushOf (tasks : List Task) (temp : List (String × Int)) (nb : String) :
    List (Nat × Nat × String) :=
  if (aget temp nb 0 - 1) == 0 then
    match findTask tasks nb with
    | some nt => [(nt.priority.value, nt.created_at, nb)]
    | none => []
  else []

/-- Everything one neighbour pass appends to the heap. -/
def pushList (tasks : List Task) (temp : List (String × Int))
    (l : List String) : List (Nat × Nat × String) :=
  (l.map (pushOf tasks temp)).flatten

/-- The `temp_in_degree` dictionary that `topological_sort` builds under
a coherent cache: one entry per task, holding its fresh OPEN-predecessor
count. -/
def tempOf (tasks : List Task) (preds : List (String × List String)) :
    List (String × Int) :=
  tasks.map (fun t => (t.name, (indegreeCount tasks preds t.name : Int)))

/-- The initial heap of `topological_sort`: the tasks of
`temp_in_degree` 0, in task order, keyed by
`(priority.value, created_at, name)`. -/
def pqOf (tasks : List Task) (temp : List (String × Int)) :
    List (Nat × Nat × String) :=
  (tasks.filter (fun t => aget temp t.name 0 == 0)).map
    (fun t => (t.priority.value, t.created_at, t.name))

/-- Invariant of `topological_sort`'s main loop, relating the heap, the
`temp_in_degree` dictionary and the emitted order: emitted and queued
vertices are registered and mutually distinct; every counter holds its
initial OPEN-predecessor count minus one per emitted predecessor; and a
vertex has been pushed (emitted or queued) exactly when its counter has
reached 0 or below. -/
structure TopoInv (tasks : List Task) (preds : List (String × List String))
    (pq : List (Nat × Nat × String)) (temp : List (String × Int))
    (res : List String) : Prop where
  resSub : ∀ n ∈ res, n ∈ tasks.map Task.name
  pqSub : ∀ x ∈ pq, x.2.2 ∈ tasks.map Task.name
  nd : (res ++ pq.map (fun x => x.2.2)).Nodup
  tempEq : ∀ n ∈ tasks.map Task.name,
    aget temp n 0 = (indegreeCount tasks preds n : Int) -
      (((aget preds n []).filter (fun p => res.contains p)).length : Int)
  pushedIff : ∀ n ∈ tasks.map Task.name,
    (n ∈ res ∨ n ∈ pq.map (fun x => x.2.2)) ↔ aget temp n 0 ≤ 0

/-- All predecessors of `n` already appear in `res`. -/
def PredsDone (preds : List (String × List String)) (res : List String)
    (n : String) : Prop :=
  ∀ p ∈ aget preds n [], p ∈ res

/-- Strengthened Kahn-loop invariant available when every task is OPEN:
a vertex is queued only once all of its predecessors were emitted, and
the emitted prefix lists every vertex after all its predecessors. -/
structure TopoOrd (tasks : List Task) (preds : List (String × List String))
    (pq : List (Nat × Nat × String)) (temp : List (String × Int))
    (res : List String) : Prop where
  inv : TopoInv tasks preds pq temp res
  pqDone : ∀ x ∈ pq, PredsDone preds res x.2.2
  resOrd : ∀ i : Fin res.length, PredsDone preds (res.take i) (res.get i)

/-- The `end_time` recorded for `p` in a schedule-entry list (0 when no
entry carries that name). -/
def entryEnd (entries : List ScheduleEntry) (p : String) : Nat :=
  match entries.find? (fun e => e.task_name == p) with
  | some e => e.end_time
  | none => 0

/-- The latest `end_time` among the entries named in `ps`: the earliest
start the spec assigns to a task whose predecessor list is `ps` (0 when
it has none). -/
def predMaxEnd (entries : List ScheduleEntry) (ps : List String) : Nat :=
  ps.foldl (fun m p => max m (entryEnd entries p)) 0

/-- Invariant of `calculate_schedule`'s accumulator after processing
the prefix `done` of the topological order: entry names mirror `done`;
every entry copies its task's static fields, ends at `start + duration`,
and starts at the latest end among its predecessors (all of which are
already emitted); the token counter sums the emitted entries; and the
earliest-start map, keyed exactly by `order`, holds for each vertex the
latest end among its already-emitted predecessors. -/
structure SchedInv (tasks : List Task) (preds : List (String × List String))
    (order done : List String)
    (acc : List ScheduleEntry × Nat × List (String × Nat)) : Prop where
  names : acc.1.map ScheduleEntry.task_name = done
  entry_fields : ∀ e ∈ acc.1, ∃ t ∈ tasks, t.name = e.task_name ∧
    e.duration = t.duration ∧ e.priority = t.priority.value ∧
    e.estimated_tokens = t.estimated_tokens ∧ e.status = t.status ∧
    e.end_time = e.start_time + t.duration ∧
    e.start_time = predMaxEnd acc.1 (aget preds e.task_name [])
  predsIn : ∀ e ∈ acc.1, ∀ p ∈ aget preds e.task_name [], p ∈ done
  total : acc.2.1 = (acc.1.map ScheduleEntry.estimated_tokens).sum
  keys : acc.2.2.map Prod.fst = order
  starts : ∀ m ∈ order, aget acc.2.2 m 0 =
    predMaxEnd acc.1 ((aget preds m []).filter (fun p => done.contains p))

/-- The `estimated_tokens` of the registered task named `n` (0 when
unregistered). -/
def tokOf (tasks : List Task) (n : String) : Nat :=
  match findTask tasks n with
  | some t => t.estimated_tokens
  | none => 0

/-! ## Concrete fixtures used by the claim theorems

The states below are built exclusively through the modelled public
operations, so each corresponds to a concrete Python session. -/

/-- Timer oracle of a run with no timer gates (never consulted). -/
def fxOracle : TimerOracle := fun _ => none

/-- A gate-free task as produced by
`Task(n, p, duration=1, estimated_tokens=1000)` at instant `c`. -/
def fxTask (n : String) (p : Priority) (c : Nat) : Task :=
  { name := n, priority := p, duration := 1, estimated_tokens := 1000,
    used_tokens := 0, status := .OPEN, created_at := c,
    await_type := none, await_id := none }

/-- Names of a ready-triple list (empty on a propagated gate error). -/
def readyNames (r : Except GateErr (List (Task × Priority × Bool))) :
    List String :=
  match r with
  | .ok l => l.map (fun x => x.1.name)
  | .error _ => []

/-- `schedule.find(task_name == n)`. -/
def entryFor (entries : List ScheduleEntry) (n : String) : Option ScheduleEntry :=
  entries.find? (fun e => e.task_name == n)

/-- C1: `register A(HIGH), B(MEDIUM), C(LOW)` on a fresh
`PearceKellyScheduler`. -/
def fxChain0 : PK.Scheduler :=
  (PK.register_task (PK.register_task
    (PK.register_task PK.init (fxTask "A" .HIGH 0)).1 (fxTask "B" .MEDIUM 1)).1
    (fxTask "C" .LOW 2)).1

/-- C1: then `add_dependency(A, B)` and `add_dependency(B, C)`. -/
def fxChain : PK.Scheduler :=
  (PK.add_dependency fxOracle
    (PK.add_dependency fxOracle fxChain0 "A" "B").1 "B" "C").1

/-- C2/C3: `register A(MEDIUM), B(MEDIUM)` on a fresh scheduler. -/
def fxAB : PK.Scheduler :=
  (PK.register_task (PK.register_task PK.init (fxTask "A" .MEDIUM 0)).1
    (fxTask "B" .MEDIUM 1)).1

/-- C2/C3: `add_dependency(B, A)` — ranks force the reorder path. -/
def fxBA : PK.Scheduler × Except SchedErr Bool :=
  PK.add_dependency fxOracle fxAB "B" "A"

/-- C2: then `add_dependency(A, B)`, which closes the cycle `A → B → A`. -/
def fxCyc : PK.Scheduler × Except SchedErr Bool :=
  PK.add_dependency fxOracle fxBA.1 "A" "B"

/-- C4: `register X, Y, Z` on a fresh optimized scheduler
(ranks 0, 1, 2). -/
def fxXYZ : PKOpt.Scheduler :=
  (PKOpt.register_task fxOracle (PKOpt.register_task fxOracle
    (PKOpt.register_task fxOracle PKOpt.init (fxTask "X" .MEDIUM 0)).1
    (fxTask "Y" .MEDIUM 1)).1 (fxTask "Z" .MEDIUM 2)).1

/-- C4: `add_dependency(Z, X)` — requires a rank reorder, no cycle. -/
def fxZX : PKOpt.Scheduler × Except SchedErr Bool :=
  PKOpt.add_dependency fxOracle fxXYZ "Z" "X"

/-- C5: a task gated by `("human", "ok")`. -/
def fxGatedTask : Task :=
  { name := "A", priority := .MEDIUM, duration := 1, estimated_tokens := 1000,
    used_tokens := 0, status := .OPEN, created_at := 0,
    await_type := some "human", await_id := some "ok" }

/-- C5: register the gated task on a fresh optimized scheduler
(default 60 s ready-cache TTL). -/
def fxGate0 : PKOpt.Scheduler :=
  (PKOpt.register_task fxOracle PKOpt.init fxGatedTask).1

/-- C5: first `compute_ready_tasks()` (at `now = 10`). -/
def fxGateQ1 : PKOpt.Scheduler × Except GateErr (List (Task × Priority × Bool)) :=
  PKOpt.compute_ready_tasks fxOracle 10 fxGate0 0

/-- C5: `approve_gate("ok")` via the gate evaluator. -/
def fxGateApproved : PKOpt.Scheduler :=
  PKOpt.approve_human_gate fxGateQ1.1 "ok"

/-- C5: the next `compute_ready_tasks()` one second later — well within
the 60 s TTL. -/
def fxGateQ2 : PKOpt.Scheduler × Except GateErr (List (Task × Priority × Bool)) :=
  PKOpt.compute_ready_tasks fxOracle 11 fxGateApproved 0

/-- C6: register `B` then `A`, equal priorities and equal creation
instants. -/
def fxTie : PK.Scheduler :=
  (PK.register_task (PK.register_task PK.init (fxTask "B" .MEDIUM 0)).1
    (fxTask "A" .MEDIUM 0)).1

/-- C6: the ready triple the model produces for each of the two tied
tasks (effective priority MEDIUM, no boost). -/
def fxTieTriple (n : String) : Task × Priority × Bool :=
  (fxTask n .MEDIUM 0, .MEDIUM, false)

/-- C6: the ready list of `fxTie` — registration order, not name
order. -/
def fxTieList : List (Task × Priority × Bool) :=
  [fxTieTriple "B", fxTieTriple "A"]

/-- C7: `register u, v` on a fresh optimized scheduler. -/
def fxUV : PKOpt.Scheduler :=
  (PKOpt.register_task fxOracle (PKOpt.register_task fxOracle PKOpt.init
    (fxTask "u" .MEDIUM 0)).1 (fxTask "v" .MEDIUM 1)).1

/-- C7: first `add_dependency(u, v)`. -/
def fxUVr1 : PKOpt.Scheduler × Except SchedErr Bool :=
  PKOpt.add_dependency fxOracle fxUV "u" "v"

/-- C7: second, duplicate `add_dependency(u, v)`. -/
def fxUVr2 : PKOpt.Scheduler × Except SchedErr Bool :=
  PKOpt.add_dependency fxOracle fxUVr1.1 "u" "v"

/-- C4 witness: `register A, B, Z` on a fresh base scheduler; adding
B→A will reorder within {A, B} and must leave Z's rank alone. -/
def fxC4base : PK.Scheduler :=
  (PK.register_task (PK.register_task (PK.register_task PK.init
    (fxTask "A" .MEDIUM 0)).1 (fxTask "B" .MEDIUM 1)).1
    (fxTask "Z" .MEDIUM 2)).1

/-- C7 witness: base scheduler with u, v registered and the edge u→v
already present. -/
def fxC7base : PK.Scheduler :=
  (PK.add_dependency fxOracle
    (PK.register_task (PK.register_task PK.init (fxTask "u" .MEDIUM 0)).1
      (fxTask "v" .MEDIUM 1)).1 "u" "v").1

/-- C8: `register g(MEDIUM), u(MEDIUM), v(CRITICAL)`, then
`add_dependency(g, u)` (u becomes BLOCKED) and `add_dependency(u, v)`
(v stays OPEN: its only predecessor is BLOCKED). -/
def fxSched : PK.Scheduler :=
  (PK.add_dependency fxOracle (PK.add_dependency fxOracle
    (PK.register_task (PK.register_task (PK.register_task PK.init
      (fxTask "g" .MEDIUM 0)).1 (fxTask "u" .MEDIUM 1)).1
      (fxTask "v" .CRITICAL 2)).1 "g" "u").1 "u" "v").1

/-- C8: its `calculate_schedule()`. -/
def fxSchedR : PK.Scheduler × List ScheduleEntry × Nat :=
  PK.calculate_schedule fxSched

/-- C10: `register x`, then `add_dependency(x, x)` on the optimized
scheduler (no self-loop guard there). -/
def fxLoop : PKOpt.Scheduler × Except SchedErr Bool :=
  PKOpt.add_dependency fxOracle
    (PKOpt.register_task fxOracle PKOpt.init (fxTask "x" .MEDIUM 0)).1 "x" "x"

/-- C8 witness: a directly-constructed consistent base-scheduler state:
both tasks OPEN with the edge `u→v` present, mirrored `preds`, correct
ranks and an empty (hence trivially coherent) in-degree cache.  (The
public operations would have flipped `v` to BLOCKED; the schedule
theorem is about the graph data, which this state exercises with a
non-trivial dependency.) -/
def fxC8art : PK.Scheduler :=
  { tasks := [fxTask "u" .MEDIUM 0, fxTask "v" .MEDIUM 1],
    adj := [("u", ["v"]), ("v", [])],
    preds := [("u", []), ("v", ["u"])],
    ranks := [("u", 0), ("v", 1)],
    indegree_cache := [], indegree_valid := [], approvals := [],
    enable_priority_inheritance := true, priority_inheritance_depth := 10,
    aging_threshold := 604800, aging_boost := 1 }

/-! ## Basic lemmas about the container model -/

theorem aget_aset_self (m : List (String × α)) (k : String) (v d : α) :
    aget (aset m k v) k d = v := by
  induction m with
  | nil => simp [aset, aget]
  | cons p rest ih =>
    by_cases h : p.1 = k
    · simp [aset, h, aget]
    · simp [aset, aget, h, ih]

theorem aget_aset_ne (m : List (String × α)) (h : k' ≠ k) (v d : α) :
    aget (aset m k v) k' d = aget m k' d := by
  have h' : ¬ (k = k') := fun hh => h hh.symm
  induction m with
  | nil => simp [aset, aget, h']
  | cons p rest ih =>
    by_cases hp : p.1 = k
    · simp [aset, aget, hp, h']
    · simp [aset, aget, hp, ih]

theorem aget_foldl_aset_notMem (l : List (String × α)) (m : List (String × α))
    (x : String) (d : α) (hx : ∀ p ∈ l, p.1 ≠ x) :
    aget (l.foldl (fun r p => aset r p.1 p.2) m) x d = aget m x d := by
  induction l generalizing m with
  | nil => rfl
  | cons p rest ih =>
    rw [List.foldl_cons, ih _ (fun q hq => hx q (List.mem_cons_of_mem p hq)),
      aget_aset_ne _ (fun hh => hx p (List.mem_cons_self p rest) hh.symm)]

theorem mem_sadd (l : List String) (x y : String) :
    y ∈ sadd l x ↔ y ∈ l ∨ y = x := by
  unfold sadd
  by_cases h : l.contains x = true
  · have hx : x ∈ l := by simpa using h
    simp only [h, if_true]
    constructor
    · exact Or.inl
    · rintro (hy | rfl)
      · exact hy
      · exact hx
  · have hx : ¬ x ∈ l := by simpa using h
    simp [hx, List.mem_append]

theorem mem_sdiscard (l : List String) (x y : String) :
    y ∈ sdiscard l x ↔ y ∈ l ∧ y ≠ x := by
  simp [sdiscard, List.mem_filter]

theorem mem_dedupL_aux (l acc : List String) (x : String) :
    x ∈ l.foldl (fun acc x => if acc.contains x then acc else acc ++ [x]) acc ↔
      x ∈ acc ∨ x ∈ l := by
  induction l generalizing acc with
  | nil => simp
  | cons y rest ih =>
    rw [List.foldl_cons]
    by_cases h : acc.contains y
    · rw [if_pos h, ih]
      constructor
      · rintro (hx | hx)
        · exact Or.inl hx
        · exact Or.inr (List.mem_cons_of_mem y hx)
      · rintro (hx | hx)
        · exact Or.inl hx
        · rcases List.mem_cons.mp hx with rfl | hx
          · exact Or.inl (by simpa using h)
          · exact Or.inr hx
    · rw [if_neg h, ih]
      simp only [List.mem_append, List.mem_singleton, List.mem_cons]
      tauto

theorem mem_dedupL (l : List String) (x : String) :
    x ∈ dedupL l ↔ x ∈ l := by
  unfold dedupL
  rw [mem_dedupL_aux]
  simp

theorem insSorted_perm (le : α → α → Bool) (x : α) (l : List α) :
    (insSorted le x l).Perm (x :: l) := by
  induction l with
  | nil => simp [insSorted]
  | cons y ys ih =>
    unfold insSorted
    by_cases h : le y x
    · rw [if_pos h]
      exact (ih.cons y).trans (List.Perm.swap x y ys)
    · rw [if_neg h]

theorem stableSortBy_aux_perm (le : α → α → Bool) (l acc : List α) :
    (l.foldl (fun a x => insSorted le x a) acc).Perm (acc ++ l) := by
  induction l generalizing acc with
  | nil => simp
  | cons y ys ih =>
    rw [List.foldl_cons]
    refine (ih (insSorted le y acc)).trans ?_
    refine (List.Perm.append_right ys (insSorted_perm le y acc)).trans ?_
    exact List.perm_middle.symm.trans (by simp)

theorem stableSortBy_perm (le : α → α → Bool) (l : List α) :
    (stableSortBy le l).Perm l := by
  simpa using stableSortBy_aux_perm le l []

theorem mem_stableSortBy (le : α → α → Bool) (l : List α) (x : α) :
    x ∈ stableSortBy le l ↔ x ∈ l :=
  (stableSortBy_perm le l).mem_iff

theorem kahnStep_mem (_adj : List (String × List String)) (subset : List String)
    (l : List String) (q : List String) (m : List (String × Int)) (y : String)
    (hy : y ∈ (l.foldl
      (fun (acc : List String × List (String × Int)) v =>
        if subset.contains v then
          let d := aget acc.2 v 0 - 1
          let m := aset acc.2 v d
          if d == 0 then (acc.1 ++ [v], m) else (acc.1, m)
        else acc) (q, m)).1) :
    y ∈ q ∨ y ∈ subset := by
  induction l generalizing q m with
  | nil => exact Or.inl hy
  | cons v rest ih =>
    rw [List.foldl_cons] at hy
    by_cases hv : subset.contains v
    · simp only [hv, if_true] at hy
      by_cases hd : (aget m v 0 - 1) == 0
      · simp only [hd, if_true] at hy
        rcases ih _ _ hy with h | h
        · rcases List.mem_append.mp h with h | h
          · exact Or.inl h
          · rcases List.mem_singleton.mp h with rfl
            exact Or.inr (by simpa using hv)
        · exact Or.inr h
      · simp only [hd, if_false] at hy
        exact ih _ _ hy
    · simp only [hv, if_false] at hy
      exact ih _ _ hy

theorem kahnLoop_mem (adj : List (String × List String)) (subset : List String)
    (fuel : Nat) (y : String) :
    ∀ (q : List String) (m : List (String × Int)) (res : List String),
      y ∈ kahnLoop adj subset fuel q m res → y ∈ res ∨ y ∈ q ∨ y ∈ subset := by
  induction fuel with
  | zero => intro q m res hy; exact Or.inl hy
  | succ fuel ih =>
    intro q m res hy
    cases q with
    | nil => exact Or.inl hy
    | cons u rest =>
      rw [kahnLoop] at hy
      rcases ih _ _ _ hy with h | h | h
      · rcases List.mem_append.mp h with h | h
        · exact Or.inl h
        · rw [List.mem_singleton.mp h]
          exact Or.inr (Or.inl (List.mem_cons_self u rest))
      · rcases kahnStep_mem adj subset _ _ _ y h with h | h
        · exact Or.inr (Or.inl (List.mem_cons_of_mem u h))
        · exact Or.inr (Or.inr h)
      · exact Or.inr (Or.inr h)

/-! ## Frame lemmas: which state components each operation can touch -/

theorem wrapGate_fst (z : PK.Scheduler × Except GateErr Unit) :
    (PK.wrapGate z).1 = z.1 := by
  obtain ⟨s, r⟩ := z
  cases r <;> rfl

theorem get_indegree_ranks (s : PK.Scheduler) (n : String) :
    ((PK.get_indegree s n).1).ranks = s.ranks := by
  unfold PK.get_indegree
  split <;> rfl

theorem update_task_status_ranks (oracle : TimerOracle) (s : PK.Scheduler)
    (n : String) : ((PK.update_task_status oracle s n).1).ranks = s.ranks := by
  unfold PK.update_task_status
  repeat' split
  all_goals try simp [get_indegree_ranks]
  all_goals repeat' split
  all_goals simp [get_indegree_ranks]

theorem invalidate_indegree_ranks (s : PK.Scheduler) (n : String) :
    (PK.invalidate_indegree s n).ranks = s.ranks := rfl

theorem finishEdge_ranks (oracle : TimerOracle) (s : PK.Scheduler)
    (u v : String) : ((PK.finishEdge oracle s u v).1).ranks = s.ranks := by
  unfold PK.finishEdge
  rw [wrapGate_fst, update_task_status_ranks, invalidate_indegree_ranks]

theorem subgraph_topological_sort_subset (s : PK.Scheduler)
    (l : List String) (y : String)
    (hy : y ∈ PK.subgraph_topological_sort s l) : y ∈ l := by
  unfold PK.subgraph_topological_sort at hy
  rcases kahnLoop_mem s.adj (dedupL l) _ y _ _ _ hy with h | h | h
  · exact absurd h (List.not_mem_nil y)
  · exact (mem_dedupL l y).mp (List.mem_of_mem_filter h)
  · exact (mem_dedupL l y).mp h

theorem reorder_ranks_of_notMem (s : PK.Scheduler) (anc desc : List String)
    (x : String) (hx : ¬ x ∈ anc ++ desc) :
    aget (PK.reorder s anc desc).ranks x 0 = aget s.ranks x 0 := by
  unfold PK.reorder
  refine aget_foldl_aset_notMem _ _ _ _ ?_
  intro p hp hpx
  apply hx
  have h1 : p.1 ∈ PK.subgraph_topological_sort s
      (stableSortBy (fun a b => decide (aget s.ranks a 0 ≤ aget s.ranks b 0))
        (dedupL (anc ++ desc))) := (List.of_mem_zip hp).1
  have h2 := subgraph_topological_sort_subset s _ _ h1
  rw [mem_stableSortBy, mem_dedupL] at h2
  exact hpx ▸ h2

/-! ## Lemmas about the stable sort and the ready-list ordering -/

theorem pairLe_iff (p q : Nat × Nat) :
    pairLe p q = true ↔ (p.1 < q.1 ∨ (p.1 = q.1 ∧ p.2 ≤ q.2)) := by
  simp [pairLe]

theorem pairLe_refl (p : Nat × Nat) : pairLe p p = true := by
  rw [pairLe_iff]; omega

theorem pairLe_total (p q : Nat × Nat) : pairLe p q = true ∨ pairLe q p = true := by
  rw [pairLe_iff, pairLe_iff]; omega

theorem pairLe_trans {p q r : Nat × Nat} (h1 : pairLe p q = true)
    (h2 : pairLe q r = true) : pairLe p r = true := by
  rw [pairLe_iff] at h1 h2 ⊢; omega

theorem pairLe_of_not {p q : Nat × Nat} (h : ¬ pairLe q p = true) :
    pairLe p q = true := by
  rw [pairLe_iff] at h ⊢; omega

theorem mem_insSorted (le : α → α → Bool) (x : α) (l : List α) (y : α) :
    y ∈ insSorted le x l ↔ y = x ∨ y ∈ l :=
  (insSorted_perm le x l).mem_iff.trans (by simp)

theorem insSorted_pairwise (le : α → α → Bool)
    (htot : ∀ a b, le a b = true ∨ le b a = true)
    (htrans : ∀ a b c, le a b = true → le b c = true → le a c = true)
    (x : α) (l : List α) (hl : l.Pairwise (fun a b => le a b = true)) :
    (insSorted le x l).Pairwise (fun a b => le a b = true) := by
  induction l with
  | nil => simp [insSorted]
  | cons y ys ih =>
    rcases List.pairwise_cons.mp hl with ⟨hy, hys⟩
    unfold insSorted
    by_cases h : le y x = true
    · rw [if_pos h]
      refine List.pairwise_cons.mpr ⟨?_, ih hys⟩
      intro z hz
      rcases (mem_insSorted le x ys z).mp hz with rfl | hz
      · exact h
      · exact hy z hz
    · rw [if_neg h]
      have hxy : le x y = true := (htot x y).resolve_right (fun hh => h hh)
      refine List.pairwise_cons.mpr ⟨?_, hl⟩
      intro z hz
      rcases List.mem_cons.mp hz with rfl | hz
      · exact hxy
      · exact htrans x y z hxy (hy z hz)

theorem stableSortBy_aux_pairwise (le : α → α → Bool)
    (htot : ∀ a b, le a b = true ∨ le b a = true)
    (htrans : ∀ a b c, le a b = true → le b c = true → le a c = true)
    (l : List α) :
    ∀ acc : List α, acc.Pairwise (fun a b => le a b = true) →
      (l.foldl (fun a x => insSorted le x a) acc).Pairwise
        (fun a b => le a b = true) := by
  induction l with
  | nil => intro acc hacc; exact hacc
  | cons x xs ih =>
    intro acc hacc
    rw [List.foldl_cons]
    exact ih _ (insSorted_pairwise le htot htrans x acc hacc)

theorem stableSortBy_pairwise (le : α → α → Bool)
    (htot : ∀ a b, le a b = true ∨ le b a = true)
    (htrans : ∀ a b c, le a b = true → le b c = true → le a c = true)
    (l : List α) :
    (stableSortBy le l).Pairwise (fun a b => le a b = true) :=
  stableSortBy_aux_pairwise le htot htrans l [] (by simp)

theorem insSorted_filter_key (key : α → Nat × Nat) (k : Nat × Nat) (x : α)
    (l : List α)
    (hl : l.Pairwise (fun a b => pairLe (key a) (key b) = true)) :
    (insSorted (fun a b => pairLe (key a) (key b)) x l).filter
        (fun a => key a == k) =
      l.filter (fun a => key a == k) ++ if key x == k then [x] else [] := by
  induction l with
  | nil => by_cases hpx : (key x == k) = true <;> simp [insSorted, hpx]
  | cons y ys ih =>
    rcases List.pairwise_cons.mp hl with ⟨hy, hys⟩
    unfold insSorted
    by_cases h : pairLe (key y) (key x) = true
    · rw [if_pos h, List.filter_cons, List.filter_cons, ih hys]
      by_cases hpy : (key y == k) = true
      · simp [hpy]
      · simp [hpy]
    · rw [if_neg h]
      by_cases hpx : (key x == k) = true
      · have hk : key x = k := by simpa using hpx
        have hnil : (y :: ys).filter (fun a => key a == k) = [] := by
          rw [List.filter_eq_nil_iff]
          intro z hz
          have hyz : pairLe (key y) (key z) = true := by
            rcases List.mem_cons.mp hz with rfl | hz
            · exact pairLe_refl _
            · exact hy z hz
          intro hzk
          have hzk' : key z = k := by simpa using hzk
          rw [hzk', ← hk] at hyz
          exact h hyz
        rw [List.filter_cons, if_pos hpx, hnil]
        simp [hk]
      · rw [List.filter_cons, if_neg (by simpa using hpx)]
        simp [hpx]

theorem stableSortBy_filter_key_aux (key : α → Nat × Nat) (k : Nat × Nat)
    (l : List α) :
    ∀ acc : List α, acc.Pairwise (fun a b => pairLe (key a) (key b) = true) →
      (l.foldl (fun a x => insSorted (fun a b => pairLe (key a) (key b)) x a)
          acc).filter (fun a => key a == k) =
        acc.filter (fun a => key a == k) ++ l.filter (fun a => key a == k) := by
  induction l with
  | nil => intro acc _; simp
  | cons x xs ih =>
    intro acc hacc
    rw [List.foldl_cons,
      ih _ (insSorted_pairwise (fun a b => pairLe (key a) (key b))
        (fun a b => pairLe_total (key a) (key b))
        (fun a b c h1 h2 => pairLe_trans h1 h2) x acc hacc),
      insSorted_filter_key key k x acc hacc, List.filter_cons]
    by_cases hpx : (key x == k) = true
    · simp [hpx]
    · simp [hpx]

theorem stableSortBy_filter_key (key : α → Nat × Nat) (k : Nat × Nat)
    (l : List α) :
    (stableSortBy (fun a b => pairLe (key a) (key b)) l).filter
        (fun a => key a == k) =
      l.filter (fun a => key a == k) :=
  by simpa using stableSortBy_filter_key_aux key k l [] (by simp)

/-! ## Lemmas for the Kahn sweep of `topological_sort` -/

theorem heapPopMin_none (l : List (Nat × Nat × String)) :
    heapPopMin l = none ↔ l = [] := by
  cases l with
  | nil => simp [heapPopMin]
  | cons x xs =>
    simp only [heapPopMin]
    cases h : heapPopMin xs with
    | none => simp
    | some p =>
      obtain ⟨m, rest⟩ := p
      by_cases ht : tripLt m x = true <;> simp [ht]

theorem heapPopMin_perm (l : List (Nat × Nat × String)) (t : Nat × Nat × String)
    (rest : List (Nat × Nat × String)) (h : heapPopMin l = some (t, rest)) :
    l.Perm (t :: rest) := by
  induction l generalizing t rest with
  | nil => simp [heapPopMin] at h
  | cons x xs ih =>
    simp only [heapPopMin] at h
    cases hx : heapPopMin xs with
    | none =>
      rw [hx] at h
      have hnil : xs = [] := (heapPopMin_none xs).mp hx
      simp only [Option.some.injEq, Prod.mk.injEq] at h
      obtain ⟨rfl, rfl⟩ := h
      rw [hnil]
    | some p =>
      obtain ⟨m, r⟩ := p
      rw [hx] at h
      dsimp only at h
      by_cases ht : tripLt m x = true
      · rw [if_pos ht] at h
        simp only [Option.some.injEq, Prod.mk.injEq] at h
        obtain ⟨rfl, rfl⟩ := h
        exact (List.Perm.cons x (ih _ _ hx)).trans (List.Perm.swap _ x _)
      · rw [if_neg ht] at h
        simp only [Option.some.injEq, Prod.mk.injEq] at h
        obtain ⟨rfl, rfl⟩ := h
        exact List.Perm.refl _

theorem findTask_isSome_iff (tasks : List Task) (n : String) :
    (findTask tasks n).isSome = true ↔ n ∈ tasks.map Task.name := by
  unfold findTask
  rw [List.find?_isSome]
  constructor
  · rintro ⟨t, ht, he⟩
    exact List.mem_map.mpr ⟨t, ht, by simpa using he⟩
  · intro hn
    rcases List.mem_map.mp hn with ⟨t, ht, he⟩
    exact ⟨t, ht, by simp [he]⟩

theorem topoPush_snd (tasks : List Task)
    (acc : List (Nat × Nat × String) × List (String × Int)) (nb : String) :
    (topoPush tasks acc nb).2 = aset acc.2 nb (aget acc.2 nb 0 - 1) := by
  by_cases hd : ((aget acc.2 nb 0 - 1) == 0) = true
  · cases hft : findTask tasks nb <;> simp [topoPush, hd, hft]
  · simp [topoPush, hd]

theorem topoPush_fst (tasks : List Task)
    (acc : List (Nat × Nat × String) × List (String × Int)) (nb : String) :
    (topoPush tasks acc nb).1 = acc.1 ++ pushOf tasks acc.2 nb := by
  by_cases hd : ((aget acc.2 nb 0 - 1) == 0) = true
  · cases hft : findTask tasks nb <;> simp [topoPush, pushOf, hd, hft]
  · simp [topoPush, pushOf, hd]

theorem pushOf_congr (tasks : List Task) (temp1 temp2 : List (String × Int))
    (nb : String) (h : aget temp1 nb 0 = aget temp2 nb 0) :
    pushOf tasks temp1 nb = pushOf tasks temp2 nb := by
  unfold pushOf
  rw [h]

theorem pushList_congr (tasks : List Task) (temp1 temp2 : List (String × Int))
    (l : List String) (h : ∀ nb ∈ l, aget temp1 nb 0 = aget temp2 nb 0) :
    pushList tasks temp1 l = pushList tasks temp2 l := by
  unfold pushList
  congr 1
  exact List.map_congr_left (fun nb hnb => pushOf_congr tasks temp1 temp2 nb (h nb hnb))

theorem topoStep_cons (tasks : List Task) (nb : String) (rest : List String)
    (pq : List (Nat × Nat × String)) (temp : List (String × Int)) :
    topoStep tasks (nb :: rest) pq temp =
      topoStep tasks rest (topoPush tasks (pq, temp) nb).1
        (topoPush tasks (pq, temp) nb).2 := rfl

theorem topoStep_snd (tasks : List Task) :
    ∀ (l : List String), l.Nodup →
      ∀ (pq : List (Nat × Nat × String)) (temp : List (String × Int)) (n : String),
        aget (topoStep tasks l pq temp).2 n 0 =
          aget temp n 0 - (if n ∈ l then 1 else 0) := by
  intro l
  induction l with
  | nil => intro _ pq temp n; simp [topoStep]
  | cons nb rest ih =>
    intro hl pq temp n
    rcases List.nodup_cons.mp hl with ⟨hnb, hrest⟩
    rw [topoStep_cons, ih hrest, topoPush_snd]
    by_cases hn : n = nb
    · subst hn
      rw [aget_aset_self]
      simp [hnb]
    · rw [aget_aset_ne _ hn]
      simp [List.mem_cons, hn]

theorem topoStep_fst (tasks : List Task) :
    ∀ (l : List String), l.Nodup →
      ∀ (pq : List (Nat × Nat × String)) (temp : List (String × Int)),
        (topoStep tasks l pq temp).1 = pq ++ pushList tasks temp l := by
  intro l
  induction l with
  | nil => intro _ pq temp; simp [topoStep, pushList]
  | cons nb rest ih =>
    intro hl pq temp
    rcases List.nodup_cons.mp hl with ⟨hnb, hrest⟩
    rw [topoStep_cons, ih hrest, topoPush_fst, topoPush_snd]
    have hc : pushList tasks (aset temp nb (aget temp nb 0 - 1)) rest =
        pushList tasks temp rest := by
      refine pushList_congr tasks _ _ rest (fun nb' hnb' => ?_)
      exact aget_aset_ne temp (fun (he : nb' = nb) => hnb (by rw [← he]; exact hnb'))
        (aget temp nb 0 - 1) 0
    rw [hc]
    show (pq ++ pushOf tasks temp nb) ++ pushList tasks temp rest =
      pq ++ pushList tasks temp (nb :: rest)
    rw [List.append_assoc]
    unfold pushList
    simp

theorem pushOf_names (tasks : List Task) (temp : List (String × Int))
    (nb : String) (hreg : (findTask tasks nb).isSome = true) :
    (pushOf tasks temp nb).map (fun x => x.2.2) =
      if aget temp nb 0 == 1 then [nb] else [] := by
  have he : ((aget temp nb 0 - 1) == 0) = (aget temp nb 0 == 1) := by
    by_cases h : aget temp nb 0 = 1
    · simp [h]
    · have h1 : ¬ (aget temp nb 0 - 1 = 0) := by omega
      simp [h, h1]
  cases hft : findTask tasks nb with
  | none => rw [hft] at hreg; simp at hreg
  | some t => unfold pushOf; rw [he, hft]; by_cases h : (aget temp nb 0 == 1) = true <;> simp [h]

theorem pushList_names (tasks : List Task) (temp : List (String × Int)) :
    ∀ (l : List String), (∀ nb ∈ l, (findTask tasks nb).isSome = true) →
      (pushList tasks temp l).map (fun x => x.2.2) =
        l.filter (fun nb => aget temp nb 0 == 1) := by
  intro l
  induction l with
  | nil => intro _; rfl
  | cons nb rest ih =>
    intro hreg
    unfold pushList
    rw [List.map_cons, List.flatten_cons, List.map_append, List.filter_cons]
    rw [pushOf_names tasks temp nb (hreg nb (List.mem_cons_self nb rest))]
    have ihr := ih (fun x hx => hreg x (List.mem_cons_of_mem nb hx))
    unfold pushList at ihr
    rw [ihr]
    by_cases h : (aget temp nb 0 == 1) = true <;> simp [h]

theorem aget_cases (m : List (String × α)) (k : String) (d : α) :
    aget m k d = d ∨ ∃ p ∈ m, p.1 = k ∧ aget m k d = p.2 := by
  induction m with
  | nil => exact Or.inl rfl
  | cons p rest ih =>
    by_cases h : p.1 = k
    · exact Or.inr ⟨p, List.mem_cons_self p rest, h, by simp [aget, h]⟩
    · have he : aget (p :: rest) k d = aget rest k d := by simp [aget, h]
      rcases ih with h1 | ⟨q, hq, hk, hv⟩
      · exact Or.inl (he.trans h1)
      · exact Or.inr ⟨q, List.mem_cons_of_mem p hq, hk, he.trans hv⟩

theorem wf_adj_nodup {tasks : List Task} {adj preds : List (String × List String)}
    (hWF : GraphWF tasks adj preds) (u : String) : (aget adj u []).Nodup := by
  rcases aget_cases adj u ([] : List String) with h | ⟨p, hp, -, hv⟩
  · rw [h]; exact List.nodup_nil
  · rw [hv]; exact hWF.2.2.2.1 p hp

theorem wf_preds_nodup {tasks : List Task} {adj preds : List (String × List String)}
    (hWF : GraphWF tasks adj preds) (v : String) : (aget preds v []).Nodup := by
  rcases aget_cases preds v ([] : List String) with h | ⟨p, hp, -, hv⟩
  · rw [h]; exact List.nodup_nil
  · rw [hv]; exact hWF.2.2.2.2.1 p hp

theorem wf_edge_names {tasks : List Task} {adj preds : List (String × List String)}
    (hWF : GraphWF tasks adj preds) (u v : String) (h : v ∈ aget adj u []) :
    u ∈ tasks.map Task.name ∧ v ∈ tasks.map Task.name := by
  rcases aget_cases adj u ([] : List String) with he | ⟨p, hp, hk, hv⟩
  · rw [he] at h; exact absurd h (List.not_mem_nil v)
  · rw [hv] at h
    rcases hWF.2.2.2.2.2.1 p hp v h with ⟨h1, h2, -⟩
    exact ⟨hk ▸ h1, h2⟩

theorem wf_edge_iff {tasks : List Task} {adj preds : List (String × List String)}
    (hWF : GraphWF tasks adj preds) (u v : String) :
    v ∈ aget adj u [] ↔ u ∈ aget preds v [] := by
  constructor
  · intro h
    rcases aget_cases adj u ([] : List String) with he | ⟨p, hp, hk, hv⟩
    · rw [he] at h; exact absurd h (List.not_mem_nil v)
    · rw [hv] at h
      rcases hWF.2.2.2.2.2.1 p hp v h with ⟨-, -, h3⟩
      exact hk ▸ h3
  · intro h
    rcases aget_cases preds v ([] : List String) with he | ⟨q, hq, hk, hv⟩
    · rw [he] at h; exact absurd h (List.not_mem_nil u)
    · rw [hv] at h
      have := hWF.2.2.2.2.2.2 q hq u h
      exact hk ▸ this

theorem wf_pred_names {tasks : List Task} {adj preds : List (String × List String)}
    (hWF : GraphWF tasks adj preds) (v p : String) (h : p ∈ aget preds v []) :
    p ∈ tasks.map Task.name :=
  (wf_edge_names hWF p v ((wf_edge_iff hWF p v).mpr h)).1

theorem length_filter_contains_snoc (l res : List String) (u : String)
    (hu : ¬ u ∈ res) (hl : l.Nodup) :
    (l.filter (fun p => (res ++ [u]).contains p)).length =
      (l.filter (fun p => res.contains p)).length + (if u ∈ l then 1 else 0) := by
  induction l with
  | nil => simp
  | cons x rest ih =>
    rcases List.nodup_cons.mp hl with ⟨hx, hrest⟩
    have hrec := ih hrest
    rw [List.filter_cons, List.filter_cons]
    by_cases hxu : x = u
    · subst hxu
      have h1 : ((res ++ [x]).contains x) = true := by simp
      have h2 : (res.contains x) = false := by simpa using hu
      rw [h1, h2, if_pos rfl, if_neg (by simp : ¬ false = true)]
      simp only [List.length_cons]
      rw [hrec, if_neg hx, if_pos (List.mem_cons_self x rest)]
    · have hneq : ¬ u = x := fun he => hxu he.symm
      have hiff : ((res ++ [u]).contains x) = (res.contains x) := by
        by_cases hr : x ∈ res
        · have ha : ((res ++ [u]).contains x) = true := by simp [hr]
          have hb : (res.contains x) = true := by simpa using hr
          rw [ha, hb]
        · have ha : ((res ++ [u]).contains x) = false := by simp [hr, hxu]
          have hb : (res.contains x) = false := by simpa using hr
          rw [ha, hb]
      rw [hiff]
      have hm : (u ∈ x :: rest) ↔ (u ∈ rest) := by
        rw [List.mem_cons]
        exact ⟨fun h => h.resolve_left hneq, Or.inr⟩
      rw [if_congr hm rfl rfl]
      by_cases hr : (res.contains x) = true
      · rw [if_pos hr, if_pos hr]
        simp only [List.length_cons]
        rw [hrec]
        omega
      · rw [if_neg hr, if_neg hr, hrec]

theorem topoInv_step {tasks : List Task} {adj preds : List (String × List String)}
    (hWF : GraphWF tasks adj preds)
    {pq : List (Nat × Nat × String)} {temp : List (String × Int)}
    {res : List String}
    (hInv : TopoInv tasks preds pq temp res)
    {t : Nat × Nat × String} {pq' : List (Nat × Nat × String)}
    (hpop : heapPopMin pq = some (t, pq')) :
    TopoInv tasks preds (topoStep tasks (aget adj t.2.2 []) pq' temp).1
      (topoStep tasks (aget adj t.2.2 []) pq' temp).2 (res ++ [t.2.2]) := by
  have hperm := heapPopMin_perm pq t pq' hpop
  set u := t.2.2 with hu_def
  set l := aget adj u [] with hl_def
  have hlNd : l.Nodup := wf_adj_nodup hWF u
  have hlNames : ∀ nb ∈ l, nb ∈ tasks.map Task.name :=
    fun nb hnb => (wf_edge_names hWF u nb hnb).2
  have hpermN : (pq.map (fun x => x.2.2)).Perm (u :: pq'.map (fun x => x.2.2)) :=
    hperm.map (fun x => x.2.2)
  have hu_pq : u ∈ pq.map (fun x => x.2.2) := by
    rw [hpermN.mem_iff]; exact List.mem_cons_self _ _
  have hu_names : u ∈ tasks.map Task.name := by
    rcases List.mem_map.mp hu_pq with ⟨x, hx, he⟩
    exact he ▸ hInv.pqSub x hx
  have hndP : (res ++ (u :: pq'.map (fun x => x.2.2))).Nodup :=
    ((List.Perm.refl res).append hpermN).nodup_iff.mp hInv.nd
  have hndM : (u :: (res ++ pq'.map (fun x => x.2.2))).Nodup := by
    have hp : (res ++ u :: pq'.map (fun x => x.2.2)).Perm
        (u :: (res ++ pq'.map (fun x => x.2.2))) := List.perm_middle
    exact hp.nodup_iff.mp hndP
  have hu_notin : ¬ u ∈ res ++ pq'.map (fun x => x.2.2) :=
    (List.nodup_cons.mp hndM).1
  have hndRP : (res ++ pq'.map (fun x => x.2.2)).Nodup := (List.nodup_cons.mp hndM).2
  have hu_nres : ¬ u ∈ res := fun h => hu_notin (List.mem_append_left _ h)
  have hu_npq' : ¬ u ∈ pq'.map (fun x => x.2.2) :=
    fun h => hu_notin (List.mem_append_right _ h)
  have hreg : ∀ nb ∈ l, (findTask tasks nb).isSome = true :=
    fun nb hnb => (findTask_isSome_iff tasks nb).mpr (hlNames nb hnb)
  have hfst := topoStep_fst tasks l hlNd pq' temp
  have hsnd := topoStep_snd tasks l hlNd pq' temp
  have hpushN := pushList_names tasks temp l hreg
  -- membership in the names of the new queue
  have hnewN : ∀ n, n ∈ (topoStep tasks l pq' temp).1.map (fun x => x.2.2) ↔
      (n ∈ pq'.map (fun x => x.2.2) ∨ (n ∈ l ∧ aget temp n 0 = 1)) := by
    intro n
    rw [hfst, List.map_append, List.mem_append, hpushN]
    constructor
    · rintro (h | h)
      · exact Or.inl h
      · rcases List.mem_filter.mp h with ⟨h1, h2⟩
        exact Or.inr ⟨h1, by simpa using h2⟩
    · rintro (h | ⟨h1, h2⟩)
      · exact Or.inl h
      · exact Or.inr (List.mem_filter.mpr ⟨h1, by simpa using h2⟩)
  -- old pq names vs new: for n ≠ u
  have hpqN : ∀ n, n ≠ u → (n ∈ pq.map (fun x => x.2.2) ↔
      n ∈ pq'.map (fun x => x.2.2)) := by
    intro n hne
    rw [hpermN.mem_iff, List.mem_cons]
    exact ⟨fun h => h.resolve_left hne, Or.inr⟩
  refine ⟨?_, ?_, ?_, ?_, ?_⟩
  · intro n hn
    rcases List.mem_append.mp hn with h | h
    · exact hInv.resSub n h
    · rw [List.mem_singleton.mp h]; exact hu_names
  · intro x hx
    rw [hfst] at hx
    rcases List.mem_append.mp hx with h | h
    · exact hInv.pqSub x (hperm.mem_iff.mpr (List.mem_cons_of_mem t h))
    · have : x.2.2 ∈ (pushList tasks temp l).map (fun y => y.2.2) :=
        List.mem_map_of_mem _ h
      rw [hpushN] at this
      exact hlNames x.2.2 (List.mem_of_mem_filter this)
  · -- nodup of res ++ [u] ++ (pq' ++ pushes).map
    rw [hfst, List.map_append]
    have h1 : ((res ++ [u]) ++ pq'.map (fun x => x.2.2)).Nodup := by
      have hp : ((res ++ [u]) ++ pq'.map (fun x => x.2.2)).Perm
          (u :: (res ++ pq'.map (fun x => x.2.2))) := by
        rw [List.append_assoc]
        exact List.perm_middle
      exact hp.nodup_iff.mpr hndM
    rw [← List.append_assoc]
    rw [List.nodup_append]
    refine ⟨h1, ?_, ?_⟩
    · rw [hpushN]
      exact hlNd.filter _
    · intro a ha hpa
      rw [hpushN] at hpa
      rcases List.mem_filter.mp hpa with ⟨hal, hat⟩
      have hat' : aget temp a 0 = 1 := by simpa using hat
      have haNames : a ∈ tasks.map Task.name := hlNames a hal
      have hnot : ¬ (a ∈ res ∨ a ∈ pq.map (fun x => x.2.2)) := by
        intro hcon
        have := (hInv.pushedIff a haNames).mp hcon
        omega
      rcases List.mem_append.mp ha with h | h
      · rcases List.mem_append.mp h with h' | h'
        · exact hnot (Or.inl h')
        · rw [List.mem_singleton.mp h'] at hat'
          have hu_le : aget temp u 0 ≤ 0 :=
            (hInv.pushedIff u hu_names).mp (Or.inr hu_pq)
          omega
      · exact hnot (Or.inr ((hpqN a (by
          intro he
          rw [he] at hat'
          have hu_le : aget temp u 0 ≤ 0 :=
            (hInv.pushedIff u hu_names).mp (Or.inr hu_pq)
          omega)).mpr h))
  · intro n hn
    rw [hsnd, hInv.tempEq n hn]
    have hcnt := length_filter_contains_snoc (aget preds n []) res u hu_nres
      (wf_preds_nodup hWF n)
    rw [hcnt]
    have hiff : (n ∈ l) ↔ (u ∈ aget preds n []) := wf_edge_iff hWF u n
    by_cases hnl : n ∈ l
    · rw [if_pos hnl, if_pos (hiff.mp hnl)]
      push_cast
      omega
    · rw [if_neg hnl, if_neg (fun h => hnl (hiff.mpr h))]
      push_cast
      omega
  · intro n hn
    rw [hsnd]
    have hold := hInv.pushedIff n hn
    by_cases hnu : n = u
    · subst hnu
      have hle : aget temp u 0 ≤ 0 := hold.mp (Or.inr hu_pq)
      constructor
      · intro _
        by_cases hnl : u ∈ l <;> simp [hnl] <;> omega
      · intro _
        exact Or.inl (List.mem_append_right _ (List.mem_singleton.mpr rfl))
    · have hresE : n ∈ res ++ [u] ↔ n ∈ res := by
        rw [List.mem_append, List.mem_singleton]
        exact ⟨fun h => h.resolve_right hnu, Or.inl⟩
      rw [hresE, hnewN n]
      by_cases hnl : n ∈ l
      · rw [if_pos hnl]
        constructor
        · rintro (h | h | ⟨-, h2⟩)
          · have := hold.mp (Or.inl h); omega
          · have := hold.mp (Or.inr ((hpqN n hnu).mpr h)); omega
          · omega
        · intro hle
          by_cases hz : aget temp n 0 ≤ 0
          · rcases hold.mpr hz with h | h
            · exact Or.inl h
            · exact Or.inr (Or.inl ((hpqN n hnu).mp h))
          · exact Or.inr (Or.inr ⟨hnl, by omega⟩)
      · rw [if_neg hnl]
        constructor
        · rintro (h | h | ⟨h1, -⟩)
          · have := hold.mp (Or.inl h); omega
          · have := hold.mp (Or.inr ((hpqN n hnu).mpr h)); omega
          · exact absurd h1 hnl
        · intro hle
          rcases hold.mpr (by omega) with h | h
          · exact Or.inl h
          · exact Or.inr (Or.inl ((hpqN n hnu).mp h))

theorem filter_length_mono {α : Type} (l : List α) (P Q : α → Bool)
    (h : ∀ a ∈ l, P a = true → Q a = true) :
    (l.filter P).length ≤ (l.filter Q).length := by
  induction l with
  | nil => simp
  | cons x rest ih =>
    have ihr := ih (fun a ha => h a (List.mem_cons_of_mem x ha))
    rw [List.filter_cons, List.filter_cons]
    by_cases hP : P x = true
    · rw [if_pos hP, if_pos (h x (List.mem_cons_self x rest) hP)]
      simpa using ihr
    · rw [if_neg hP]
      by_cases hQ : Q x = true
      · rw [if_pos hQ]
        simp only [List.length_cons]
        omega
      · rw [if_neg hQ]
        exact ihr

theorem topoLoopG_inv {tasks : List Task} {adj preds : List (String × List String)}
    (hWF : GraphWF tasks adj preds) :
    ∀ (fuel : Nat) (pq : List (Nat × Nat × String)) (temp : List (String × Int))
      (res : List String), TopoInv tasks preds pq temp res →
      tasks.length < fuel + res.length →
      ∃ tempF, TopoInv tasks preds [] tempF (topoLoopG tasks adj fuel pq temp res) := by
  intro fuel
  induction fuel with
  | zero =>
    intro pq temp res hInv hlt
    exfalso
    have hnd : res.Nodup := (List.nodup_append.mp hInv.nd).1
    have hsub : res ⊆ tasks.map Task.name := fun n hn => hInv.resSub n hn
    have hle : res.length ≤ (tasks.map Task.name).length :=
      (hnd.subperm hsub).length_le
    rw [List.length_map] at hle
    omega
  | succ fuel ih =>
    intro pq temp res hInv hlt
    rw [topoLoopG]
    cases hpop : heapPopMin pq with
    | none =>
      have hpq : pq = [] := (heapPopMin_none pq).mp hpop
      subst hpq
      exact ⟨temp, hInv⟩
    | some p =>
      obtain ⟨t, pq'⟩ := p
      dsimp only
      exact ih _ _ _ (topoInv_step hWF hInv hpop)
        (by simp only [List.length_append, List.length_singleton]; omega)

theorem topoInv_complete {tasks : List Task} {adj preds : List (String × List String)}
    (hWF : GraphWF tasks adj preds)
    (f : String → Nat) (hf : ∀ u v, v ∈ aget adj u [] → f u < f v)
    {tempF : List (String × Int)} {resF : List String}
    (hInv : TopoInv tasks preds [] tempF resF) :
    ∀ n ∈ tasks.map Task.name, n ∈ resF := by
  have main : ∀ (k : Nat) (n : String), n ∈ tasks.map Task.name → f n = k →
      n ∈ resF := by
    intro k
    induction k using Nat.strong_induction_on with
    | _ k ih =>
      intro n hn hfn
      by_contra hnot
      have hpush := hInv.pushedIff n hn
      have hpos : ¬ aget tempF n 0 ≤ 0 := by
        intro hle
        rcases hpush.mpr hle with h | h
        · exact hnot h
        · simp at h
      have htemp := hInv.tempEq n hn
      have hgt : ((aget preds n []).filter (fun p => resF.contains p)).length <
          indegreeCount tasks preds n := by omega
      have hex : ∃ p ∈ aget preds n [],
          statusIsOpen (findTask tasks p) = true ∧ ¬ p ∈ resF := by
        by_contra hall
        push_neg at hall
        have hmono : ((aget preds n []).filter
            (fun p => statusIsOpen (findTask tasks p))).length ≤
            ((aget preds n []).filter (fun p => resF.contains p)).length := by
          refine filter_length_mono (aget preds n [])
            (fun p => statusIsOpen (findTask tasks p))
            (fun p => resF.contains p) (fun p hp hopen => ?_)
          simpa using hall p hp hopen
        unfold indegreeCount at hgt
        omega
      obtain ⟨p, hp, hopen, hpnot⟩ := hex
      have hedge : n ∈ aget adj p [] := (wf_edge_iff hWF p n).mpr hp
      have hplt : f p < k := hfn ▸ hf p n hedge
      exact hpnot (ih (f p) hplt p (wf_pred_names hWF n p hp) rfl)
  intro n hn
  exact main (f n) n hn rfl

theorem topoLoopG_count {tasks : List Task} {adj preds : List (String × List String)}
    (hWF : GraphWF tasks adj preds)
    (f : String → Nat) (hf : ∀ u v, v ∈ aget adj u [] → f u < f v)
    (pq0 : List (Nat × Nat × String)) (temp0 : List (String × Int))
    (hInv : TopoInv tasks preds pq0 temp0 []) (n : String) :
    (topoLoopG tasks adj (tasks.length + 1) pq0 temp0 []).count n =
      if n ∈ tasks.map Task.name then 1 else 0 := by
  obtain ⟨tempF, hInvF⟩ := topoLoopG_inv hWF (tasks.length + 1) pq0 temp0 []
    hInv (by simp)
  set resF := topoLoopG tasks adj (tasks.length + 1) pq0 temp0 [] with hres
  have hnd : resF.Nodup := by simpa using hInvF.nd
  by_cases hn : n ∈ tasks.map Task.name
  · rw [if_pos hn]
    exact List.count_eq_one_of_mem hnd (topoInv_complete hWF f hf hInvF n hn)
  · rw [if_neg hn]
    exact List.count_eq_zero.mpr (fun h => hn (hInvF.resSub n h))

instance graphWFDec (tasks : List Task) (adj preds : List (String × List String)) :
    Decidable (GraphWF tasks adj preds) := by
  unfold GraphWF
  exact inferInstance

instance cacheOKDec (tasks : List Task) (preds : List (String × List String))
    (cache : List (String × Nat)) (valid : List String) :
    Decidable (CacheOK tasks preds cache valid) := by
  unfold CacheOK
  exact inferInstance

theorem acy_of_adjList {adj : List (String × List String)} {f : String → Nat}
    (hf : ∀ p ∈ adj, ∀ v ∈ p.2, f p.1 < f v) :
    ∀ u v, v ∈ aget adj u [] → f u < f v := by
  intro u v hv
  rcases aget_cases adj u ([] : List String) with he | ⟨p, hp, hk, ha⟩
  · rw [he] at hv
    exact absurd hv (List.not_mem_nil v)
  · rw [ha] at hv
    have := hf p hp v hv
    rwa [hk] at this

theorem pk_get_indegree_graph (s : PK.Scheduler) (n : String) :
    (PK.get_indegree s n).1.tasks = s.tasks ∧ (PK.get_indegree s n).1.adj = s.adj ∧
      (PK.get_indegree s n).1.preds = s.preds := by
  unfold PK.get_indegree
  by_cases h : s.indegree_valid.contains n = true
  · rw [if_pos h]
    exact ⟨rfl, rfl, rfl⟩
  · rw [if_neg h]
    exact ⟨rfl, rfl, rfl⟩

theorem pk_get_indegree_val (s : PK.Scheduler) (n : String)
    (hC : CacheOK s.tasks s.preds s.indegree_cache s.indegree_valid) :
    (PK.get_indegree s n).2 = indegreeCount s.tasks s.preds n := by
  unfold PK.get_indegree
  by_cases h : s.indegree_valid.contains n = true
  · rw [if_pos h]
    exact hC n (by simpa using h)
  · rw [if_neg h]

theorem pk_get_indegree_cacheOK (s : PK.Scheduler) (n : String)
    (hC : CacheOK s.tasks s.preds s.indegree_cache s.indegree_valid) :
    CacheOK (PK.get_indegree s n).1.tasks (PK.get_indegree s n).1.preds
      (PK.get_indegree s n).1.indegree_cache (PK.get_indegree s n).1.indegree_valid := by
  unfold PK.get_indegree
  by_cases h : s.indegree_valid.contains n = true
  · rw [if_pos h]
    exact hC
  · rw [if_neg h]
    dsimp only
    intro m hm
    by_cases hmn : m = n
    · subst hmn
      exact aget_aset_self s.indegree_cache m (indegreeCount s.tasks s.preds m) 0
    · have hm' : m ∈ s.indegree_valid := by
        rcases (mem_sadd s.indegree_valid n m).mp hm with h1 | h1
        · exact h1
        · exact absurd h1 hmn
      rw [aget_aset_ne s.indegree_cache hmn (indegreeCount s.tasks s.preds n) 0]
      exact hC m hm'

theorem pk_indeg_fold (tasks0 : List Task) (adj0 preds0 : List (String × List String)) :
    ∀ (ts : List Task) (s0 : PK.Scheduler) (acc0 : List (String × Int)),
      s0.tasks = tasks0 → s0.adj = adj0 → s0.preds = preds0 →
      CacheOK s0.tasks s0.preds s0.indegree_cache s0.indegree_valid →
      (ts.foldl PK.indegFoldStep (s0, acc0)).1.tasks = tasks0 ∧
      (ts.foldl PK.indegFoldStep (s0, acc0)).1.adj = adj0 ∧
      (ts.foldl PK.indegFoldStep (s0, acc0)).2 =
        acc0 ++ ts.map (fun t => (t.name, (indegreeCount tasks0 preds0 t.name : Int))) := by
  intro ts
  induction ts with
  | nil =>
    intro s0 acc0 ht ha _ _
    exact ⟨ht, ha, by simp⟩
  | cons t rest ih =>
    intro s0 acc0 ht ha hp hC
    rw [List.foldl_cons]
    have hstep : PK.indegFoldStep (s0, acc0) t =
        ((PK.get_indegree s0 t.name).1,
          acc0 ++ [(t.name, ((PK.get_indegree s0 t.name).2 : Int))]) := rfl
    rw [hstep]
    obtain ⟨hgt, hga, hgp⟩ := pk_get_indegree_graph s0 t.name
    have hval : (((PK.get_indegree s0 t.name).2 : Nat) : Int) =
        ((indegreeCount tasks0 preds0 t.name : Nat) : Int) := by
      rw [pk_get_indegree_val s0 t.name hC, ht, hp]
    obtain ⟨i1, i2, i3⟩ := ih (PK.get_indegree s0 t.name).1
      (acc0 ++ [(t.name, ((PK.get_indegree s0 t.name).2 : Int))])
      (hgt.trans ht) (hga.trans ha) (hgp.trans hp)
      (pk_get_indegree_cacheOK s0 t.name hC)
    refine ⟨i1, i2, ?_⟩
    rw [i3, hval]
    simp

theorem pkopt_get_indegree_graph (s : PKOpt.Scheduler) (n : String) :
    (PKOpt.get_indegree s n).1.tasks = s.tasks ∧
      (PKOpt.get_indegree s n).1.adj = s.adj ∧
      (PKOpt.get_indegree s n).1.preds = s.preds := by
  unfold PKOpt.get_indegree
  by_cases h : s.indegree_valid.contains n = true
  · rw [if_pos h]
    exact ⟨rfl, rfl, rfl⟩
  · rw [if_neg h]
    exact ⟨rfl, rfl, rfl⟩

theorem pkopt_get_indegree_val (s : PKOpt.Scheduler) (n : String)
    (hC : CacheOK s.tasks s.preds s.indegree_cache s.indegree_valid) :
    (PKOpt.get_indegree s n).2 = indegreeCount s.tasks s.preds n := by
  unfold PKOpt.get_indegree
  by_cases h : s.indegree_valid.contains n = true
  · rw [if_pos h]
    exact hC n (by simpa using h)
  · rw [if_neg h]

theorem pkopt_get_indegree_cacheOK (s : PKOpt.Scheduler) (n : String)
    (hC : CacheOK s.tasks s.preds s.indegree_cache s.indegree_valid) :
    CacheOK (PKOpt.get_indegree s n).1.tasks (PKOpt.get_indegree s n).1.preds
      (PKOpt.get_indegree s n).1.indegree_cache
      (PKOpt.get_indegree s n).1.indegree_valid := by
  unfold PKOpt.get_indegree
  by_cases h : s.indegree_valid.contains n = true
  · rw [if_pos h]
    exact hC
  · rw [if_neg h]
    dsimp only
    intro m hm
    by_cases hmn : m = n
    · subst hmn
      exact aget_aset_self s.indegree_cache m (indegreeCount s.tasks s.preds m) 0
    · have hm' : m ∈ s.indegree_valid := by
        rcases (mem_sadd s.indegree_valid n m).mp hm with h1 | h1
        · exact h1
        · exact absurd h1 hmn
      rw [aget_aset_ne s.indegree_cache hmn (indegreeCount s.tasks s.preds n) 0]
      exact hC m hm'

theorem pkopt_indeg_fold (tasks0 : List Task) (adj0 preds0 : List (String × List String)) :
    ∀ (ts : List Task) (s0 : PKOpt.Scheduler) (acc0 : List (String × Int)),
      s0.tasks = tasks0 → s0.adj = adj0 → s0.preds = preds0 →
      CacheOK s0.tasks s0.preds s0.indegree_cache s0.indegree_valid →
      (ts.foldl PKOpt.indegFoldStep (s0, acc0)).1.tasks = tasks0 ∧
      (ts.foldl PKOpt.indegFoldStep (s0, acc0)).1.adj = adj0 ∧
      (ts.foldl PKOpt.indegFoldStep (s0, acc0)).2 =
        acc0 ++ ts.map (fun t => (t.name, (indegreeCount tasks0 preds0 t.name : Int))) := by
  intro ts
  induction ts with
  | nil =>
    intro s0 acc0 ht ha _ _
    exact ⟨ht, ha, by simp⟩
  | cons t rest ih =>
    intro s0 acc0 ht ha hp hC
    rw [List.foldl_cons]
    have hstep : PKOpt.indegFoldStep (s0, acc0) t =
        ((PKOpt.get_indegree s0 t.name).1,
          acc0 ++ [(t.name, ((PKOpt.get_indegree s0 t.name).2 : Int))]) := rfl
    rw [hstep]
    obtain ⟨hgt, hga, hgp⟩ := pkopt_get_indegree_graph s0 t.name
    have hval : (((PKOpt.get_indegree s0 t.name).2 : Nat) : Int) =
        ((indegreeCount tasks0 preds0 t.name : Nat) : Int) := by
      rw [pkopt_get_indegree_val s0 t.name hC, ht, hp]
    obtain ⟨i1, i2, i3⟩ := ih (PKOpt.get_indegree s0 t.name).1
      (acc0 ++ [(t.name, ((PKOpt.get_indegree s0 t.name).2 : Int))])
      (hgt.trans ht) (hga.trans ha) (hgp.trans hp)
      (pkopt_get_indegree_cacheOK s0 t.name hC)
    refine ⟨i1, i2, ?_⟩
    rw [i3, hval]
    simp

theorem pqOf_cons (t : Task) (rest : List Task) (temp : List (String × Int)) :
    pqOf (t :: rest) temp =
      (if aget temp t.name 0 == 0
       then [(t.priority.value, t.created_at, t.name)] else []) ++ pqOf rest temp := by
  by_cases h : (aget temp t.name 0 == 0) = true
  · simp [pqOf, List.filter_cons, h]
  · simp [pqOf, List.filter_cons, h]

theorem pq_fold (temp : List (String × Int)) :
    ∀ (ts : List Task) (acc : List (Nat × Nat × String)),
      ts.foldl (pqFoldStep temp) acc = acc ++ pqOf ts temp := by
  intro ts
  induction ts with
  | nil =>
    intro acc
    simp [pqOf]
  | cons t rest ih =>
    intro acc
    rw [List.foldl_cons, pqOf_cons]
    have hstep : pqFoldStep temp acc t =
        acc ++ (if aget temp t.name 0 == 0
          then [(t.priority.value, t.created_at, t.name)] else []) := by
      unfold pqFoldStep
      by_cases h : (aget temp t.name 0 == 0) = true
      · rw [if_pos h, if_pos h]
      · rw [if_neg h, if_neg h]
        simp
    rw [hstep, ih, List.append_assoc]

theorem aget_tempOf (tasks0 : List Task) (preds : List (String × List String)) :
    ∀ (tasks : List Task) (n : String), n ∈ tasks.map Task.name →
      aget (tasks.map (fun t => (t.name, (indegreeCount tasks0 preds t.name : Int))))
        n 0 = (indegreeCount tasks0 preds n : Int) := by
  intro tasks
  induction tasks with
  | nil =>
    intro n hn
    simp at hn
  | cons t rest ih =>
    intro n hn
    rw [List.map_cons] at hn ⊢
    by_cases h : t.name = n
    · simp [aget, h]
    · have hn' : n ∈ rest.map Task.name := by
        rcases List.mem_cons.mp hn with h1 | h1
        · exact absurd h1.symm h
        · exact h1
      simp [aget, h, ih n hn']

theorem topoInv_init {tasks : List Task} {adj preds : List (String × List String)}
    (hWF : GraphWF tasks adj preds) :
    TopoInv tasks preds (pqOf tasks (tempOf tasks preds)) (tempOf tasks preds) [] := by
  have haget : ∀ n ∈ tasks.map Task.name,
      aget (tempOf tasks preds) n 0 = (indegreeCount tasks preds n : Int) := by
    intro n hn
    exact aget_tempOf tasks preds tasks n hn
  have hnames : (pqOf tasks (tempOf tasks preds)).map (fun x => x.2.2) =
      (tasks.filter (fun t => aget (tempOf tasks preds) t.name 0 == 0)).map Task.name := by
    unfold pqOf
    rw [List.map_map]
    rfl
  refine ⟨?_, ?_, ?_, ?_, ?_⟩
  · intro n hn
    simp at hn
  · intro x hx
    unfold pqOf at hx
    rcases List.mem_map.mp hx with ⟨t, ht, he⟩
    have hxt : x.2.2 = t.name := by rw [← he]
    rw [hxt]
    exact List.mem_map_of_mem Task.name (List.mem_of_mem_filter ht)
  · rw [List.nil_append, hnames]
    exact hWF.1.sublist (List.Sublist.map Task.name (List.filter_sublist tasks))
  · intro n hn
    rw [haget n hn]
    simp
  · intro n hn
    constructor
    · rintro (h | h)
      · simp at h
      · rw [hnames] at h
        rcases List.mem_map.mp h with ⟨t, ht, hname⟩
        have h0 : aget (tempOf tasks preds) t.name 0 = 0 := by
          simpa using List.of_mem_filter ht
        rw [hname] at h0
        rw [h0]
    · intro hle
      rw [haget n hn] at hle
      have h0 : indegreeCount tasks preds n = 0 := by omega
      right
      rw [hnames]
      rcases List.mem_map.mp hn with ⟨t, ht, hname⟩
      refine List.mem_map.mpr ⟨t, List.mem_filter.mpr ⟨ht, ?_⟩, hname⟩
      rw [hname, haget n hn, h0]
      rfl

theorem pk_topological_sort_eq (s : PK.Scheduler)
    (hC : CacheOK s.tasks s.preds s.indegree_cache s.indegree_valid) :
    (PK.topological_sort s).2 =
      topoLoopG s.tasks s.adj (s.tasks.length + 1)
        (pqOf s.tasks (tempOf s.tasks s.preds)) (tempOf s.tasks s.preds) [] := by
  obtain ⟨ht, ha, hz⟩ := pk_indeg_fold s.tasks s.adj s.preds s.tasks s [] rfl rfl rfl hC
  have htemp : (s.tasks.foldl PK.indegFoldStep (s, [])).2 = tempOf s.tasks s.preds := by
    rw [hz]
    simp [tempOf]
  unfold PK.topological_sort
  dsimp only
  rw [ht, ha, htemp, pq_fold, List.nil_append]

theorem pkopt_topological_sort_eq (s : PKOpt.Scheduler)
    (hC : CacheOK s.tasks s.preds s.indegree_cache s.indegree_valid) :
    (PKOpt.topological_sort s).2 =
      topoLoopG s.tasks s.adj (s.tasks.length + 1)
        (pqOf s.tasks (tempOf s.tasks s.preds)) (tempOf s.tasks s.preds) [] := by
  obtain ⟨ht, ha, hz⟩ := pkopt_indeg_fold s.tasks s.adj s.preds s.tasks s [] rfl rfl rfl hC
  have htemp : (s.tasks.foldl PKOpt.indegFoldStep (s, [])).2 = tempOf s.tasks s.preds := by
    rw [hz]
    simp [tempOf]
  unfold PKOpt.topological_sort
  dsimp only
  rw [ht, ha, htemp, pq_fold, List.nil_append]

theorem pk_topological_sort_count (s : PK.Scheduler)
    (hWF : GraphWF s.tasks s.adj s.preds)
    (hC : CacheOK s.tasks s.preds s.indegree_cache s.indegree_valid)
    (f : String → Nat) (hf : ∀ p ∈ s.adj, ∀ v ∈ p.2, f p.1 < f v) (n : String) :
    (PK.topological_sort s).2.count n =
      if n ∈ s.tasks.map Task.name then 1 else 0 := by
  rw [pk_topological_sort_eq s hC]
  exact topoLoopG_count hWF f (acy_of_adjList hf) _ _ (topoInv_init hWF) n

theorem pkopt_topological_sort_count (s : PKOpt.Scheduler)
    (hWF : GraphWF s.tasks s.adj s.preds)
    (hC : CacheOK s.tasks s.preds s.indegree_cache s.indegree_valid)
    (f : String → Nat) (hf : ∀ p ∈ s.adj, ∀ v ∈ p.2, f p.1 < f v) (n : String) :
    (PKOpt.topological_sort s).2.count n =
      if n ∈ s.tasks.map Task.name then 1 else 0 := by
  rw [pkopt_topological_sort_eq s hC]
  exact topoLoopG_count hWF f (acy_of_adjList hf) _ _ (topoInv_init hWF) n

/-! ## Lemmas for `calculate_schedule` -/

theorem bumpStart_keys (es : List (String × Nat)) (k : String) (v : Nat) :
    (PK.bumpStart es k v).map Prod.fst = es.map Prod.fst := by
  induction es with
  | nil => rfl
  | cons p rest ih =>
    simp only [PK.bumpStart, List.map_cons] at ih ⊢
    rw [ih]
    by_cases h : (p.1 == k) = true
    · have hp : p.1 = k := by simpa using h
      simp [h, hp]
    · simp [h]

theorem aget_bumpStart_ne (es : List (String × Nat)) (k m : String) (v d : Nat)
    (h : m ≠ k) : aget (PK.bumpStart es k v) m d = aget es m d := by
  have hkm : (k == m) = false := by
    simp only [beq_eq_false_iff_ne, ne_eq]
    exact fun he => h he.symm
  induction es with
  | nil => rfl
  | cons p rest ih =>
    simp only [PK.bumpStart, List.map_cons] at ih ⊢
    by_cases hp : (p.1 == k) = true
    · have hpk : p.1 = k := by simpa using hp
      rw [if_pos hp]
      have h2 : (p.1 == m) = false := by rw [hpk]; exact hkm
      simp only [aget, hkm, h2, if_false, Bool.false_eq_true]
      simpa using ih
    · rw [if_neg hp]
      by_cases hm : (p.1 == m) = true
      · simp [aget, hm]
      · simp only [aget, hm, if_false, Bool.false_eq_true]
        simpa using ih

theorem aget_bumpStart_self (es : List (String × Nat)) (k : String) (v d : Nat)
    (hk : k ∈ es.map Prod.fst) :
    aget (PK.bumpStart es k v) k d = max (aget es k d) v := by
  induction es with
  | nil => simp at hk
  | cons p rest ih =>
    simp only [PK.bumpStart, List.map_cons] at ih ⊢
    by_cases hp : (p.1 == k) = true
    · rw [if_pos hp]
      simp [aget, hp]
    · rw [if_neg hp]
      have hk' : k ∈ rest.map Prod.fst := by
        rcases List.mem_cons.mp hk with h | h
        · exact absurd (by simp [h] : (p.1 == k) = true) hp
        · exact h
      simp only [aget, hp, if_false, Bool.false_eq_true]
      simpa using ih hk'

theorem foldBump_keys (l : List String) (v : Nat) :
    ∀ es : List (String × Nat),
      (l.foldl (fun es nb => PK.bumpStart es nb v) es).map Prod.fst =
        es.map Prod.fst := by
  induction l with
  | nil => intro es; rfl
  | cons nb rest ih =>
    intro es
    rw [List.foldl_cons, ih, bumpStart_keys]

theorem aget_foldBump_notMem (l : List String) (v : Nat) (m : String)
    (hm : ¬ m ∈ l) :
    ∀ (es : List (String × Nat)) (d : Nat),
      aget (l.foldl (fun es nb => PK.bumpStart es nb v) es) m d = aget es m d := by
  induction l with
  | nil => intro es d; rfl
  | cons nb rest ih =>
    intro es d
    have hne : m ≠ nb := fun he => hm (he ▸ List.mem_cons_self nb rest)
    have hrest : ¬ m ∈ rest := fun h => hm (List.mem_cons_of_mem nb h)
    rw [List.foldl_cons, ih hrest, aget_bumpStart_ne es nb m v d hne]

theorem aget_foldBump_mem (l : List String) (v : Nat) (m : String)
    (hl : l.Nodup) (hm : m ∈ l) :
    ∀ (es : List (String × Nat)) (d : Nat), m ∈ es.map Prod.fst →
      aget (l.foldl (fun es nb => PK.bumpStart es nb v) es) m d =
        max (aget es m d) v := by
  induction l with
  | nil => simp at hm
  | cons nb rest ih =>
    intro es d hes
    rcases List.nodup_cons.mp hl with ⟨hnb, hrest⟩
    rw [List.foldl_cons]
    by_cases he : m = nb
    · subst he
      rw [aget_foldBump_notMem rest v m hnb (PK.bumpStart es m v) d,
        aget_bumpStart_self es m v d hes]
    · rcases List.mem_cons.mp hm with h | h
      · exact absurd h he
      · rw [ih hrest h (PK.bumpStart es nb v) d (by rw [bumpStart_keys]; exact hes),
          aget_bumpStart_ne es nb m v d he]

theorem entryEnd_isSome_of_mem (ents : List ScheduleEntry) (p : String)
    (hp : p ∈ ents.map ScheduleEntry.task_name) :
    (ents.find? (fun e => e.task_name == p)).isSome = true := by
  rw [List.find?_isSome]
  rcases List.mem_map.mp hp with ⟨e, he, hn⟩
  exact ⟨e, he, by simp [hn]⟩

theorem entryEnd_append_left (ents more : List ScheduleEntry) (p : String)
    (hp : p ∈ ents.map ScheduleEntry.task_name) :
    entryEnd (ents ++ more) p = entryEnd ents p := by
  unfold entryEnd
  rw [List.find?_append]
  cases hfe : ents.find? (fun e => e.task_name == p) with
  | none =>
    have := entryEnd_isSome_of_mem ents p hp
    rw [hfe] at this
    simp at this
  | some e => simp

theorem entryEnd_append_new (ents : List ScheduleEntry) (e : ScheduleEntry)
    (hp : ¬ e.task_name ∈ ents.map ScheduleEntry.task_name) :
    entryEnd (ents ++ [e]) e.task_name = e.end_time := by
  unfold entryEnd
  rw [List.find?_append]
  have hnone : ents.find? (fun x => x.task_name == e.task_name) = none := by
    rw [List.find?_eq_none]
    intro x hx hbe
    exact hp (List.mem_map.mpr ⟨x, hx, by simpa using hbe⟩)
  rw [hnone]
  simp

theorem foldMax_init (g : String → Nat) (ps : List String) :
    ∀ a : Nat, ps.foldl (fun m p => max m (g p)) a =
      max a (ps.foldl (fun m p => max m (g p)) 0) := by
  induction ps with
  | nil => intro a; simp
  | cons p rest ih =>
    intro a
    rw [List.foldl_cons, List.foldl_cons, ih (max a (g p)), ih (max 0 (g p))]
    omega

theorem predMaxEnd_cons (ents : List ScheduleEntry) (p : String)
    (ps : List String) :
    predMaxEnd ents (p :: ps) = max (entryEnd ents p) (predMaxEnd ents ps) := by
  unfold predMaxEnd
  rw [List.foldl_cons, foldMax_init]
  omega

theorem predMaxEnd_congr (ents ents' : List ScheduleEntry) (ps : List String)
    (h : ∀ p ∈ ps, entryEnd ents p = entryEnd ents' p) :
    predMaxEnd ents ps = predMaxEnd ents' ps := by
  induction ps with
  | nil => rfl
  | cons p rest ih =>
    rw [predMaxEnd_cons, predMaxEnd_cons, h p (List.mem_cons_self p rest),
      ih (fun q hq => h q (List.mem_cons_of_mem p hq))]

theorem predMaxEnd_filter_snoc (ents : List ScheduleEntry) (pre : List String)
    (n : String) (hnp : ¬ n ∈ pre) :
    ∀ (l : List String), l.Nodup → n ∈ l →
      predMaxEnd ents (l.filter (fun p => (pre ++ [n]).contains p)) =
        max (predMaxEnd ents (l.filter (fun p => pre.contains p)))
          (entryEnd ents n) := by
  intro l
  induction l with
  | nil =>
    intro _ h
    simp at h
  | cons x rest ih =>
    intro hnd hm
    rcases List.nodup_cons.mp hnd with ⟨hx, hrest⟩
    rw [List.filter_cons, List.filter_cons]
    by_cases hxn : x = n
    · subst hxn
      have h1 : ((pre ++ [x]).contains x) = true := by simp
      have h2 : (pre.contains x) = false := by simpa using hnp
      rw [h1, h2, if_pos rfl, if_neg (by simp : ¬ false = true)]
      rw [predMaxEnd_cons]
      have hsame : rest.filter (fun p => (pre ++ [x]).contains p) =
          rest.filter (fun p => pre.contains p) := by
        refine List.filter_congr (fun p hp => ?_)
        have hpn : ¬ p = x := fun he => hx (he ▸ hp)
        by_cases hc : p ∈ pre
        · have ha : ((pre ++ [x]).contains p) = true := by simp [hc]
          have hb : (pre.contains p) = true := by simpa using hc
          rw [ha, hb]
        · have ha : ((pre ++ [x]).contains p) = false := by simp [hc, hpn]
          have hb : (pre.contains p) = false := by simpa using hc
          rw [ha, hb]
      rw [hsame]
      omega
    · have hn' : n ∈ rest := by
        rcases List.mem_cons.mp hm with h | h
        · exact absurd h.symm hxn
        · exact h
      have hcont : ((pre ++ [n]).contains x) = (pre.contains x) := by
        by_cases hc : x ∈ pre
        · have ha : ((pre ++ [n]).contains x) = true := by simp [hc]
          have hb : (pre.contains x) = true := by simpa using hc
          rw [ha, hb]
        · have ha : ((pre ++ [n]).contains x) = false := by simp [hc, hxn]
          have hb : (pre.contains x) = false := by simpa using hc
          rw [ha, hb]
      rw [hcont]
      by_cases hc : (pre.contains x) = true
      · rw [if_pos hc, if_pos hc, predMaxEnd_cons, predMaxEnd_cons, ih hrest hn']
        omega
      · rw [if_neg hc, if_neg hc, ih hrest hn']

theorem filter_contains_all (l res : List String) (h : ∀ p ∈ l, p ∈ res) :
    l.filter (fun p => res.contains p) = l := by
  refine List.filter_eq_self.mpr (fun p hp => ?_)
  simpa using h p hp

theorem indegreeCount_all_open {tasks : List Task}
    {adj preds : List (String × List String)} (hWF : GraphWF tasks adj preds)
    (hOpen : ∀ t ∈ tasks, t.status = TaskStatus.OPEN) (n : String) :
    indegreeCount tasks preds n = (aget preds n []).length := by
  unfold indegreeCount
  have hall : (aget preds n []).filter
      (fun p => statusIsOpen (findTask tasks p)) = aget preds n [] := by
    refine List.filter_eq_self.mpr (fun p hp => ?_)
    have hreg : p ∈ tasks.map Task.name := wf_pred_names hWF n p hp
    have hsome : (findTask tasks p).isSome = true :=
      (findTask_isSome_iff tasks p).mpr hreg
    cases hft : findTask tasks p with
    | none =>
      rw [hft] at hsome
      simp at hsome
    | some t =>
      have ht : t ∈ tasks := by
        unfold findTask at hft
        exact List.mem_of_find?_eq_some hft
      simp [statusIsOpen, hOpen t ht]
  rw [hall]

theorem findTask_name_self :
    ∀ (tasks : List Task), (tasks.map Task.name).Nodup →
      ∀ t ∈ tasks, findTask tasks t.name = some t := by
  intro tasks
  induction tasks with
  | nil =>
    intro _ t ht
    simp at ht
  | cons a rest ih =>
    intro hnd t ht
    rw [List.map_cons, List.nodup_cons] at hnd
    rcases List.mem_cons.mp ht with h | h
    · subst h
      unfold findTask
      rw [List.find?_cons_of_pos]
      simp
    · have hmem : t.name ∈ rest.map Task.name := List.mem_map_of_mem Task.name h
      have hne : ¬ (a.name == t.name) = true := by
        intro he
        have hae : a.name = t.name := by simpa using he
        exact hnd.1 (hae ▸ hmem)
      unfold findTask at ih ⊢
      rw [List.find?_cons_of_neg]
      · exact ih hnd.2 t h
      · exact hne

theorem entryEnd_perm (ents ents' : List ScheduleEntry)
    (hperm : ents.Perm ents')
    (hnd : (ents.map ScheduleEntry.task_name).Nodup) (p : String) :
    entryEnd ents p = entryEnd ents' p := by
  unfold entryEnd
  cases hfe : ents.find? (fun e => e.task_name == p) with
  | none =>
    have hnone : ents'.find? (fun e => e.task_name == p) = none := by
      rw [List.find?_eq_none]
      intro e he hbe
      exact (List.find?_eq_none.mp hfe) e (hperm.mem_iff.mpr he) hbe
    rw [hnone]
  | some e =>
    have he : e ∈ ents := List.mem_of_find?_eq_some hfe
    have hbe := List.find?_some hfe
    have hsome : (ents'.find? (fun e => e.task_name == p)).isSome = true := by
      rw [List.find?_isSome]
      exact ⟨e, hperm.mem_iff.mp he, hbe⟩
    rcases Option.isSome_iff_exists.mp hsome with ⟨e2, hfe2⟩
    rw [hfe2]
    have he2 : e2 ∈ ents := hperm.mem_iff.mpr (List.mem_of_find?_eq_some hfe2)
    have hbe2 := List.find?_some hfe2
    have hee : e = e2 := by
      have h1 : e.task_name = p := by simpa using hbe
      have h2 : e2.task_name = p := by simpa using hbe2
      exact List.inj_on_of_nodup_map hnd he he2 (h1.trans h2.symm)
    rw [hee]

theorem topoOrd_step {tasks : List Task} {adj preds : List (String × List String)}
    (hWF : GraphWF tasks adj preds)
    (hOpen : ∀ t ∈ tasks, t.status = TaskStatus.OPEN)
    {pq : List (Nat × Nat × String)} {temp : List (String × Int)}
    {res : List String}
    (hO : TopoOrd tasks preds pq temp res)
    {t : Nat × Nat × String} {pq' : List (Nat × Nat × String)}
    (hpop : heapPopMin pq = some (t, pq')) :
    TopoOrd tasks preds (topoStep tasks (aget adj t.2.2 []) pq' temp).1
      (topoStep tasks (aget adj t.2.2 []) pq' temp).2 (res ++ [t.2.2]) := by
  have hperm := heapPopMin_perm pq t pq' hpop
  have htpq : t ∈ pq := hperm.mem_iff.mpr (List.mem_cons_self t pq')
  have hundone : PredsDone preds res t.2.2 := hO.pqDone t htpq
  have hu_pqn : t.2.2 ∈ pq.map (fun x => x.2.2) :=
    List.mem_map_of_mem (fun x => x.2.2) htpq
  have hu_nres : ¬ t.2.2 ∈ res := by
    rcases List.nodup_append.mp hO.inv.nd with ⟨-, -, hdisj⟩
    intro hc
    exact hdisj hc hu_pqn
  refine ⟨topoInv_step hWF hO.inv hpop, ?_, ?_⟩
  · have hadjnd := wf_adj_nodup hWF t.2.2
    rw [topoStep_fst tasks (aget adj t.2.2 []) hadjnd pq' temp]
    intro x hx
    rcases List.mem_append.mp hx with hx | hx
    · intro p hp
      exact List.mem_append.mpr (Or.inl
        (hO.pqDone x (hperm.mem_iff.mpr (List.mem_cons_of_mem t hx)) p hp))
    · have hlreg : ∀ nb ∈ aget adj t.2.2 [], nb ∈ tasks.map Task.name :=
        fun nb hnb => (wf_edge_names hWF t.2.2 nb hnb).2
      have hnames := pushList_names tasks temp (aget adj t.2.2 [])
        (fun nb hnb => (findTask_isSome_iff tasks nb).mpr (hlreg nb hnb))
      have hxn : x.2.2 ∈ (aget adj t.2.2 []).filter
          (fun nb => aget temp nb 0 == 1) := by
        rw [← hnames]
        exact List.mem_map_of_mem (fun x => x.2.2) hx
      have hxadj : x.2.2 ∈ aget adj t.2.2 [] := List.mem_of_mem_filter hxn
      have hx1 : aget temp x.2.2 0 = 1 := by
        simpa using List.of_mem_filter hxn
      have hxreg : x.2.2 ∈ tasks.map Task.name := hlreg x.2.2 hxadj
      have htempeq := hO.inv.tempEq x.2.2 hxreg
      rw [hx1] at htempeq
      have hcount : indegreeCount tasks preds x.2.2 =
          (aget preds x.2.2 []).length := indegreeCount_all_open hWF hOpen x.2.2
      have hup : t.2.2 ∈ aget preds x.2.2 [] :=
        (wf_edge_iff hWF t.2.2 x.2.2).mp hxadj
      have hsnoc := length_filter_contains_snoc (aget preds x.2.2 []) res t.2.2
        hu_nres (wf_preds_nodup hWF x.2.2)
      rw [if_pos hup] at hsnoc
      have hfull : ((aget preds x.2.2 []).filter
          (fun p => (res ++ [t.2.2]).contains p)).length =
          (aget preds x.2.2 []).length := by
        omega
      have hsub : (aget preds x.2.2 []).filter
          (fun p => (res ++ [t.2.2]).contains p) = aget preds x.2.2 [] :=
        List.Sublist.eq_of_length (List.filter_sublist _) hfull
      intro p hp
      have hpm : p ∈ (aget preds x.2.2 []).filter
          (fun p => (res ++ [t.2.2]).contains p) := by
        rw [hsub]
        exact hp
      simpa using List.of_mem_filter hpm
  · intro i
    by_cases hi : (i : Nat) < res.length
    · have hget : (res ++ [t.2.2]).get i = res.get ⟨i, hi⟩ := by
        rw [List.get_append]
      have htake : (res ++ [t.2.2]).take i = res.take i :=
        List.take_append_of_le_length (le_of_lt hi)
      rw [hget, htake]
      exact hO.resOrd ⟨i, hi⟩
    · have hieq : (i : Nat) = res.length := by
        have hlt := i.isLt
        simp only [List.length_append, List.length_singleton] at hlt
        omega
      have hget : (res ++ [t.2.2]).get i = t.2.2 := by
        have : i = ⟨res.length, by simp⟩ := Fin.ext hieq
        rw [this]
        simp
      have htake : (res ++ [t.2.2]).take i = res := by
        rw [hieq, List.take_left]
      rw [hget, htake]
      exact hundone

theorem topoLoopG_ord {tasks : List Task} {adj preds : List (String × List String)}
    (hWF : GraphWF tasks adj preds)
    (hOpen : ∀ t ∈ tasks, t.status = TaskStatus.OPEN) :
    ∀ (fuel : Nat) (pq : List (Nat × Nat × String)) (temp : List (String × Int))
      (res : List String), TopoOrd tasks preds pq temp res →
      tasks.length < fuel + res.length →
      ∃ tempF, TopoOrd tasks preds [] tempF (topoLoopG tasks adj fuel pq temp res) := by
  intro fuel
  induction fuel with
  | zero =>
    intro pq temp res hO hlt
    exfalso
    have hnd : res.Nodup := (List.nodup_append.mp hO.inv.nd).1
    have hsub : res ⊆ tasks.map Task.name := fun n hn => hO.inv.resSub n hn
    have hle : res.length ≤ (tasks.map Task.name).length :=
      (hnd.subperm hsub).length_le
    rw [List.length_map] at hle
    omega
  | succ fuel ih =>
    intro pq temp res hO hlt
    rw [topoLoopG]
    cases hpop : heapPopMin pq with
    | none =>
      have hpq : pq = [] := (heapPopMin_none pq).mp hpop
      subst hpq
      exact ⟨temp, hO⟩
    | some p =>
      obtain ⟨t, pq'⟩ := p
      dsimp only
      exact ih _ _ _ (topoOrd_step hWF hOpen hO hpop)
        (by simp only [List.length_append, List.length_singleton]; omega)

theorem topoOrd_init {tasks : List Task} {adj preds : List (String × List String)}
    (hWF : GraphWF tasks adj preds)
    (hOpen : ∀ t ∈ tasks, t.status = TaskStatus.OPEN) :
    TopoOrd tasks preds (pqOf tasks (tempOf tasks preds)) (tempOf tasks preds) [] := by
  refine ⟨topoInv_init hWF, ?_, ?_⟩
  · intro x hx
    unfold pqOf at hx
    rcases List.mem_map.mp hx with ⟨t, ht, he⟩
    have hxt : x.2.2 = t.name := by rw [← he]
    have h0 : aget (tempOf tasks preds) t.name 0 = 0 := by
      simpa using List.of_mem_filter ht
    have hreg : t.name ∈ tasks.map Task.name :=
      List.mem_map_of_mem Task.name (List.mem_of_mem_filter ht)
    have hcv : aget (tempOf tasks preds) t.name 0 =
        (indegreeCount tasks preds t.name : Int) :=
      aget_tempOf tasks preds tasks t.name hreg
    rw [hcv] at h0
    have hc0 : indegreeCount tasks preds t.name = 0 := by omega
    rw [indegreeCount_all_open hWF hOpen t.name] at hc0
    have hnil : aget preds t.name [] = [] := List.length_eq_zero.mp hc0
    intro p hp
    rw [hxt, hnil] at hp
    exact absurd hp (List.not_mem_nil p)
  · intro i
    exact absurd i.isLt (by simp)

theorem pk_order_spec (s : PK.Scheduler)
    (hWF : GraphWF s.tasks s.adj s.preds)
    (hC : CacheOK s.tasks s.preds s.indegree_cache s.indegree_valid)
    (hOpen : ∀ t ∈ s.tasks, t.status = TaskStatus.OPEN)
    (f : String → Nat) (hf : ∀ p ∈ s.adj, ∀ v ∈ p.2, f p.1 < f v) :
    (PK.topological_sort s).2.Nodup ∧
    (∀ n, n ∈ (PK.topological_sort s).2 ↔ n ∈ s.tasks.map Task.name) ∧
    (∀ i : Fin (PK.topological_sort s).2.length,
      PredsDone s.preds ((PK.topological_sort s).2.take i)
        ((PK.topological_sort s).2.get i)) := by
  rw [pk_topological_sort_eq s hC]
  obtain ⟨tempF, hOF⟩ := topoLoopG_ord hWF hOpen (s.tasks.length + 1)
    (pqOf s.tasks (tempOf s.tasks s.preds)) (tempOf s.tasks s.preds) []
    (topoOrd_init hWF hOpen) (by simp)
  exact ⟨by simpa using hOF.inv.nd,
    fun n => ⟨fun hn => hOF.inv.resSub n hn,
      fun hn => topoInv_complete hWF f (acy_of_adjList hf) hOF.inv n hn⟩,
    hOF.resOrd⟩
theorem findTask_props {tasks : List Task} {n : String} {t : Task}
    (h : findTask tasks n = some t) : t ∈ tasks ∧ t.name = n := by
  unfold findTask at h
  exact ⟨List.mem_of_find?_eq_some h, by simpa using List.find?_some h⟩

theorem filter_contains_snoc_notMem (l pre : List String) (n : String)
    (hn : ¬ n ∈ l) :
    l.filter (fun p => (pre ++ [n]).contains p) =
      l.filter (fun p => pre.contains p) := by
  refine List.filter_congr (fun p hp => ?_)
  have hpn : ¬ p = n := fun he => hn (he ▸ hp)
  by_cases hc : p ∈ pre
  · have ha : ((pre ++ [n]).contains p) = true := by simp [hc]
    have hb : (pre.contains p) = true := by simpa using hc
    rw [ha, hb]
  · have ha : ((pre ++ [n]).contains p) = false := by simp [hc, hpn]
    have hb : (pre.contains p) = false := by simpa using hc
    rw [ha, hb]

theorem aget_map_const0 (l : List String) (m : String) :
    aget (l.map (fun n => (n, (0 : Nat)))) m 0 = 0 := by
  induction l with
  | nil => rfl
  | cons x rest ih =>
    by_cases h : (x == m) = true
    · simp [aget, h]
    · simp [aget, h, ih]

theorem tokOf_entry {tasks : List Task} (hnd : (tasks.map Task.name).Nodup)
    {t : Task} (ht : t ∈ tasks) : tokOf tasks t.name = t.estimated_tokens := by
  unfold tokOf
  rw [findTask_name_self tasks hnd t ht]

theorem schedInv_step {tasks : List Task} {adj preds : List (String × List String)}
    (hWF : GraphWF tasks adj preds)
    {order : List String}
    (hOrdMem : ∀ n, n ∈ order ↔ n ∈ tasks.map Task.name)
    (hOrdNd : order.Nodup)
    {done : List String} {n : String} {rest : List String}
    (hsplit : order = done ++ n :: rest)
    (hpreds : ∀ p ∈ aget preds n [], p ∈ done)
    {acc : List ScheduleEntry × Nat × List (String × Nat)}
    (hInv : SchedInv tasks preds order done acc) :
    SchedInv tasks preds order (done ++ [n]) (PK.schedStep tasks adj acc n) := by
  obtain ⟨ents, tot, es⟩ := acc
  have hnord : n ∈ order := by
    rw [hsplit]
    exact List.mem_append_right done (List.mem_cons_self n rest)
  have hreg : n ∈ tasks.map Task.name := (hOrdMem n).mp hnord
  have hsome : (findTask tasks n).isSome = true :=
    (findTask_isSome_iff tasks n).mpr hreg
  cases hft : findTask tasks n with
  | none =>
    rw [hft] at hsome
    simp at hsome
  | some t =>
  obtain ⟨htmem, htn⟩ := findTask_props hft
  have hn_done : ¬ n ∈ done := by
    rw [hsplit] at hOrdNd
    rcases List.nodup_append.mp hOrdNd with ⟨-, -, hdisj⟩
    intro hc
    exact hdisj hc (List.mem_cons_self n rest)
  have hNames : ents.map ScheduleEntry.task_name = done := hInv.names
  have hn_ents : ¬ n ∈ ents.map ScheduleEntry.task_name := by
    rw [hNames]
    exact hn_done
  have hstart_full : aget es n 0 = predMaxEnd ents (aget preds n []) := by
    have h1 := hInv.starts n hnord
    rw [filter_contains_all (aget preds n []) done hpreds] at h1
    exact h1
  have hpred_in_ents : ∀ p ∈ aget preds n [],
      p ∈ ents.map ScheduleEntry.task_name := by
    intro p hp
    rw [hNames]
    exact hpreds p hp
  have hstep : PK.schedStep tasks adj (ents, tot, es) n = (ents ++ [{ task_name := t.name, start_time := aget es n 0, end_time := aget es n 0 + t.duration, duration := t.duration, priority := t.priority.value, estimated_tokens := t.estimated_tokens, status := t.status }], tot + t.estimated_tokens, (aget adj n []).foldl (fun es2 nb => PK.bumpStart es2 nb (aget es n 0 + t.duration)) es) := by
    unfold PK.schedStep
    rw [hft]
  rw [hstep]
  set eN : ScheduleEntry := { task_name := t.name, start_time := aget es n 0, end_time := aget es n 0 + t.duration, duration := t.duration, priority := t.priority.value, estimated_tokens := t.estimated_tokens, status := t.status } with heN
  have hEEstab : ∀ p ∈ aget preds n [],
      entryEnd (ents ++ [eN]) p = entryEnd ents p :=
    fun p hp => entryEnd_append_left ents [eN] p (hpred_in_ents p hp)
  refine ⟨?_, ?_, ?_, ?_, ?_, ?_⟩
  · rw [List.map_append, hNames]
    simp [htn]
  · intro e he
    rcases List.mem_append.mp he with he | he
    · obtain ⟨t2, ht2, hname2, hdur, hpri, hest, hstat, hend, hstart⟩ :=
        hInv.entry_fields e he
      refine ⟨t2, ht2, hname2, hdur, hpri, hest, hstat, hend, ?_⟩
      rw [hstart]
      exact (predMaxEnd_congr (ents ++ [eN]) ents (aget preds e.task_name [])
        (fun p hp => entryEnd_append_left ents [eN] p
          (by rw [hNames]; exact hInv.predsIn e he p hp))).symm
    · rw [List.mem_singleton.mp he]
      refine ⟨t, htmem, rfl, rfl, rfl, rfl, rfl, rfl, ?_⟩
      show aget es n 0 = predMaxEnd (ents ++ [eN]) (aget preds t.name [])
      rw [htn, hstart_full]
      exact (predMaxEnd_congr (ents ++ [eN]) ents (aget preds n [])
        (fun p hp => hEEstab p hp)).symm
  · intro e he
    rcases List.mem_append.mp he with he | he
    · intro p hp
      exact List.mem_append_left _ (hInv.predsIn e he p hp)
    · rw [List.mem_singleton.mp he]
      intro p hp
      have hp2 : p ∈ aget preds t.name [] := hp
      rw [htn] at hp2
      exact List.mem_append_left _ (hpreds p hp2)
  · rw [List.map_append, List.sum_append, ← hInv.total]
    simp
  · rw [foldBump_keys]
    exact hInv.keys
  · intro m hm
    by_cases hmadj : m ∈ aget adj n []
    · have hkeys : m ∈ es.map Prod.fst := by
        rw [hInv.keys]
        exact hm
      rw [aget_foldBump_mem (aget adj n []) (aget es n 0 + t.duration) m
        (wf_adj_nodup hWF n) hmadj es 0 hkeys]
      have hnp : n ∈ aget preds m [] := (wf_edge_iff hWF n m).mp hmadj
      rw [predMaxEnd_filter_snoc (ents ++ [eN]) done n hn_done (aget preds m [])
        (wf_preds_nodup hWF m) hnp]
      have hEEn : entryEnd (ents ++ [eN]) n = aget es n 0 + t.duration := by
        have h1 : ¬ eN.task_name ∈ ents.map ScheduleEntry.task_name := by
          show ¬ t.name ∈ ents.map ScheduleEntry.task_name
          rw [htn]
          exact hn_ents
        have h2 := entryEnd_append_new ents eN h1
        have h3 : eN.task_name = n := htn
        rw [h3] at h2
        exact h2
      rw [hEEn]
      have hstab : predMaxEnd (ents ++ [eN])
          ((aget preds m []).filter (fun p => done.contains p)) =
          predMaxEnd ents ((aget preds m []).filter (fun p => done.contains p)) :=
        predMaxEnd_congr (ents ++ [eN]) ents _ (fun p hp =>
          entryEnd_append_left ents [eN] p
            (by rw [hNames]; simpa using List.of_mem_filter hp))
      rw [hstab, ← hInv.starts m hm]
    · rw [aget_foldBump_notMem (aget adj n []) (aget es n 0 + t.duration) m
        hmadj es 0]
      have hnp : ¬ n ∈ aget preds m [] :=
        fun hc => hmadj ((wf_edge_iff hWF n m).mpr hc)
      rw [filter_contains_snoc_notMem (aget preds m []) done n hnp]
      have hstab : predMaxEnd (ents ++ [eN])
          ((aget preds m []).filter (fun p => done.contains p)) =
          predMaxEnd ents ((aget preds m []).filter (fun p => done.contains p)) :=
        predMaxEnd_congr (ents ++ [eN]) ents _ (fun p hp =>
          entryEnd_append_left ents [eN] p
            (by rw [hNames]; simpa using List.of_mem_filter hp))
      rw [hstab]
      exact hInv.starts m hm

theorem schedInv_fold {tasks : List Task} {adj preds : List (String × List String)}
    (hWF : GraphWF tasks adj preds) {order : List String}
    (hOrdNd : order.Nodup)
    (hOrdMem : ∀ n, n ∈ order ↔ n ∈ tasks.map Task.name)
    (hOrd : ∀ i : Fin order.length, PredsDone preds (order.take i) (order.get i)) :
    ∀ (todo done : List String)
      (acc : List ScheduleEntry × Nat × List (String × Nat)),
      order = done ++ todo → SchedInv tasks preds order done acc →
      SchedInv tasks preds order order
        (todo.foldl (PK.schedStep tasks adj) acc) := by
  intro todo
  induction todo with
  | nil =>
    intro done acc hsplit hInv
    rw [List.foldl_nil]
    rw [List.append_nil] at hsplit
    subst hsplit
    exact hInv
  | cons n rest ih =>
    intro done acc hsplit hInv
    rw [List.foldl_cons]
    have hlen : done.length < order.length := by
      rw [hsplit]
      simp
    have hget : order.get ⟨done.length, hlen⟩ = n := by
      subst hsplit
      simp [List.getElem_append_right]
    have htake : order.take done.length = done := by
      rw [hsplit, List.take_left]
    have hpreds : ∀ p ∈ aget preds n [], p ∈ done := by
      have hx := hOrd ⟨done.length, hlen⟩
      dsimp only at hx
      rw [hget, htake] at hx
      exact hx
    exact ih (done ++ [n]) _ (by rw [hsplit]; simp)
      (schedInv_step hWF hOrdMem hOrdNd hsplit hpreds hInv)

theorem schedFold_spec {tasks : List Task} {adj preds : List (String × List String)}
    (hWF : GraphWF tasks adj preds) {order : List String}
    (hOrdNd : order.Nodup)
    (hOrdMem : ∀ n, n ∈ order ↔ n ∈ tasks.map Task.name)
    (hOrd : ∀ i : Fin order.length, PredsDone preds (order.take i) (order.get i)) :
    SchedInv tasks preds order order
      (order.foldl (PK.schedStep tasks adj)
        ([], 0, order.map (fun n => (n, 0)))) := by
  refine schedInv_fold hWF hOrdNd hOrdMem hOrd order [] _ rfl ?_
  refine ⟨rfl, ?_, ?_, rfl, ?_, ?_⟩
  · intro e he
    simp at he
  · intro e he
    simp at he
  · have hid : ∀ p ∈ order, (Prod.fst ∘ fun n => (n, (0 : Nat))) p = id p :=
      fun p _ => rfl
    rw [List.map_map, List.map_congr_left hid, List.map_id]
  · intro m _
    rw [aget_map_const0]
    have h2 : (aget preds m []).filter
        (fun p => ([] : List String).contains p) = [] := by
      simp
    rw [h2]
    rfl

theorem pk_topological_sort_state (s : PK.Scheduler)
    (hC : CacheOK s.tasks s.preds s.indegree_cache s.indegree_valid) :
    (PK.topological_sort s).1.tasks = s.tasks ∧
    (PK.topological_sort s).1.adj = s.adj := by
  obtain ⟨ht, ha, -⟩ := pk_indeg_fold s.tasks s.adj s.preds s.tasks s [] rfl rfl rfl hC
  unfold PK.topological_sort
  dsimp only
  exact ⟨ht, ha⟩

/-! ## Claims -/

/-- C1, counterexample: in the linear chain A→B→C the ready list is not
the single task A — `compute_ready_tasks()` returns the two tasks
`[A, C]`. -/
theorem c1_linear_chain_counterexample :
    readyNames (PK.compute_ready_tasks fxOracle 3 fxChain 0).2 = ["A", "C"] ∧
    ["A", "C"] ≠ ["A"] := by
  constructor
  · decide
  · decide

/-- C1, amended: after registering A (HIGH), B (MEDIUM), C (LOW) and
adding A→B then B→C (both calls succeed), `compute_ready_tasks()`
returns exactly `[A, C]`: B is excluded because the first edge set its
status to BLOCKED, and C is included because its only predecessor B is
not OPEN, so C's effective in-degree is 0 while C itself stayed OPEN. -/
theorem c1_linear_chain_amended :
    (PK.add_dependency fxOracle fxChain0 "A" "B").2 = .ok true ∧
    (PK.add_dependency fxOracle
      (PK.add_dependency fxOracle fxChain0 "A" "B").1 "B" "C").2 = .ok true ∧
    (findTask fxChain.tasks "B").map Task.status = some .BLOCKED ∧
    (findTask fxChain.tasks "C").map Task.status = some .OPEN ∧
    aget fxChain.preds "C" [] = ["B"] ∧
    (PK.get_indegree fxChain "C").2 = 0 ∧
    readyNames (PK.compute_ready_tasks fxOracle 3 fxChain 0).2 = ["A", "C"] := by
  refine ⟨by decide, by decide, by decide, by decide, by decide, by decide, by decide⟩

/-- C3, code bug: the non-raising sequence `register A; register B;
add_dependency(B, A)` leaves `ranks[B] = 1 > 0 = ranks[A]` although the
edge B→A is present and neither endpoint is CLOSED, violating the
topological invariant.  `_reorder` runs Kahn's algorithm on the affected
set {A, B} *before* the new edge is inserted, so nothing forces B before
A; the model iterates Python's (unspecified, hash-randomised) set order
in ascending rank order, under which the ranks stay unchanged. -/
theorem c3_topological_invariant_code_bug :
    fxBA.2 = .ok true ∧
    aget fxBA.1.adj "B" [] = ["A"] ∧
    (findTask fxBA.1.tasks "B").map Task.status = some .OPEN ∧
    (findTask fxBA.1.tasks "A").map Task.status = some .BLOCKED ∧
    aget fxBA.1.ranks "B" 0 = 1 ∧
    aget fxBA.1.ranks "A" 0 = 0 := by
  refine ⟨by decide, by decide, by decide, by decide, by decide, by decide⟩

/-- C2, code bug: in the state left by the C3 sequence, the edge B→A is
present, so inserting A→B closes the cycle A→B→A; yet
`add_dependency(A, B)` raises nothing, returns `True`, and mutates the
graph (the broken rank order routes the insertion through the unchecked
fast path).  The cycle-safety contract is violated in a reachable
state. -/
theorem c2_cycle_safety_code_bug :
    "A" ∈ aget fxBA.1.adj "B" [] ∧
    fxCyc.2 = .ok true ∧
    "B" ∈ aget fxCyc.1.adj "A" [] ∧
    "A" ∈ aget fxCyc.1.adj "B" [] := by
  refine ⟨by decide, by decide, by decide, by decide⟩

/-- C4, counterexample: on the optimized scheduler with tasks X, Y, Z of
ranks 0, 1, 2 and no edges, `add_dependency(Z, X)` requires a reorder
(rank X < rank Z, no cycle); Y is in neither `δ⁻(Z)` nor `δ⁺(X)`
(as computed by the §4.2 bounded searches), yet Y's rank changes from 1
to 0: `_reorder_after_edge` touches every task in the rank window. -/
theorem c4_reorder_locality_counterexample :
    decide (aget fxXYZ.ranks "X" 0 < aget fxXYZ.ranks "Z" 0) = true ∧
    ¬ "Y" ∈ (affectedUp fxXYZ.preds fxXYZ.ranks "Z" (aget fxXYZ.ranks "X" 0) ++
      affectedDown fxXYZ.adj fxXYZ.ranks "X" (aget fxXYZ.ranks "Z" 0)) ∧
    fxZX.2 = .ok true ∧
    aget fxXYZ.ranks "Y" 0 = 1 ∧
    aget fxZX.1.ranks "Y" 0 = 0 := by
  refine ⟨by decide, by decide, by decide, by decide, by decide⟩

/-- C4, amended: the locality contract holds for `scheduler.py`
(`PearceKellyScheduler`): whenever `add_dependency(u, v)` takes the
reorder path (both registered, `u ≠ v`, edge absent,
`ranks[u] ≥ ranks[v]`, no cycle), every task outside
`δ⁻(u) ∪ δ⁺(v)` keeps its rank.  The optimized class instead may change
the rank of any task whose rank lies in `[ranks[v], ranks[u]]` (see the
counterexample). -/
theorem c4_reorder_locality_amended (oracle : TimerOracle) (s : PK.Scheduler)
    (u v x : String)
    (h1 : (findTask s.tasks u).isSome = true)
    (h2 : (findTask s.tasks v).isSome = true)
    (h3 : (u == v) = false)
    (h4 : (aget s.adj u []).contains v = false)
    (h5 : decide (aget s.ranks u 0 < aget s.ranks v 0) = false)
    (h6 : (PK.get_affected_descendants s v (aget s.ranks u 0)).contains u = false)
    (hx : ¬ x ∈ PK.get_affected_ancestors s u (aget s.ranks v 0) ++
      PK.get_affected_descendants s v (aget s.ranks u 0)) :
    aget (PK.add_dependency oracle s u v).1.ranks x 0 = aget s.ranks x 0 := by
  have hm4 : ¬ v ∈ aget s.adj u [] := by simpa using h4
  have hm5 : ¬ aget s.ranks u 0 < aget s.ranks v 0 := by simpa using h5
  have hm6 : ¬ u ∈ PK.get_affected_descendants s v (aget s.ranks u 0) := by
    simpa using h6
  have key : PK.add_dependency oracle s u v =
      PK.finishEdge oracle
        (PK.reorder s (PK.get_affected_ancestors s u (aget s.ranks v 0))
          (PK.get_affected_descendants s v (aget s.ranks u 0))) u v := by
    unfold PK.add_dependency
    simp [h1, h2, h3, hm4, hm5, hm6]
  rw [key, finishEdge_ranks, reorder_ranks_of_notMem _ _ _ _ hx]

/-- C4, witness for the amended theorem: in the C3 fixture extended with
an untouched third task Z, `add_dependency(B, A)` takes the reorder path
and Z's rank is unchanged. -/
theorem c4_reorder_locality_amended_witness :
    ((findTask fxC4base.tasks "B").isSome = true) ∧
    ((findTask fxC4base.tasks "A").isSome = true) ∧
    (("B" == "A") = false) ∧
    ((aget fxC4base.adj "B" []).contains "A" = false) ∧
    (decide (aget fxC4base.ranks "B" 0 < aget fxC4base.ranks "A" 0) = false) ∧
    ((PK.get_affected_descendants fxC4base "A"
      (aget fxC4base.ranks "B" 0)).contains "B" = false) ∧
    (¬ "Z" ∈ PK.get_affected_ancestors fxC4base "B" (aget fxC4base.ranks "A" 0) ++
      PK.get_affected_descendants fxC4base "A" (aget fxC4base.ranks "B" 0)) ∧
    aget (PK.add_dependency fxOracle fxC4base "B" "A").1.ranks "Z" 0 =
      aget fxC4base.ranks "Z" 0 :=
  ⟨by decide, by decide, by decide, by decide, by decide, by decide, by decide,
    c4_reorder_locality_amended fxOracle fxC4base "B" "A" "Z" (by decide)
      (by decide) (by decide) (by decide) (by decide) (by decide) (by decide)⟩

/-- C5, code bug: register a task gated by `("human", "ok")` on the
optimized scheduler; `compute_ready_tasks()` excludes it (as the claim
says); then `approve_human_gate("ok")` opens the gate, the from-scratch
ready predicate holds for the task (OPEN, in-degree 0, gate open), yet
the next `compute_ready_tasks()` — one second later, within the 60 s
TTL — still returns the empty list: gate approval flows through the
evaluator only and never invalidates the ready cache. -/
theorem c5_gate_ready_cache_code_bug :
    (PKOpt.register_task fxOracle PKOpt.init fxGatedTask).2 = .ok () ∧
    fxGateQ1.2 = .ok [] ∧
    GateEvaluator.is_open fxOracle fxGateApproved.approvals
      fxGatedTask.await_type fxGatedTask.await_id = .ok true ∧
    (findTask fxGateApproved.tasks "A").map Task.status = some .OPEN ∧
    (PKOpt.get_indegree fxGateApproved "A").2 = 0 ∧
    fxGateApproved.ready_valid = true ∧
    fxGateQ2.2 = .ok [] := by
  refine ⟨by decide, by decide, by decide, by decide, by decide, by decide, by decide⟩

/-- C7, counterexample: on the optimized scheduler the first
`add_dependency(u, v)` returns `True` but the duplicate second call
returns `False` — the state is unchanged, but the returned value of the
second call differs from the first, so the call is not idempotent
including its return value. -/
theorem c7_idempotent_edge_counterexample :
    fxUVr1.2 = .ok true ∧
    fxUVr2 = (fxUVr1.1, .ok false) ∧
    (Except.ok false : Except SchedErr Bool) ≠ .ok true := by
  refine ⟨by decide, by decide, by decide⟩

/-- C7, amended: a duplicate `add_dependency(u, v)` changes no state in
either class; `scheduler.py` also returns `True` again (idempotent
including the return value), while `scheduler_optimized.py` returns
`False` for the duplicate call. -/
theorem c7_idempotent_edge_amended :
    (∀ (oracle : TimerOracle) (s : PK.Scheduler) (u v : String),
      (findTask s.tasks u).isSome = true → (findTask s.tasks v).isSome = true →
      (u == v) = false → (aget s.adj u []).contains v = true →
      PK.add_dependency oracle s u v = (s, .ok true)) ∧
    (∀ (oracle : TimerOracle) (s : PKOpt.Scheduler) (u v : String),
      (findTask s.tasks u).isSome = true → (findTask s.tasks v).isSome = true →
      (aget s.adj u []).contains v = true →
      PKOpt.add_dependency oracle s u v = (s, .ok false)) := by
  constructor
  · intro oracle s u v h1 h2 h3 h4
    have hm : v ∈ aget s.adj u [] := by simpa using h4
    unfold PK.add_dependency
    simp [h1, h2, h3, hm]
  · intro oracle s u v h1 h2 h4
    have hm : v ∈ aget s.adj u [] := by simpa using h4
    unfold PKOpt.add_dependency
    simp [h1, h2, hm]

/-- C7, witness: the edge u→v being present in the optimized fixture
(and in its base-scheduler counterpart), the duplicate calls behave as
the amended claim states. -/
theorem c7_idempotent_edge_amended_witness :
    ((findTask fxC7base.tasks "u").isSome = true) ∧
    ((findTask fxC7base.tasks "v").isSome = true) ∧
    (("u" == "v") = false) ∧
    ((aget fxC7base.adj "u" []).contains "v" = true) ∧
    PK.add_dependency fxOracle fxC7base "u" "v" = (fxC7base, .ok true) ∧
    ((findTask fxUVr1.1.tasks "u").isSome = true) ∧
    ((findTask fxUVr1.1.tasks "v").isSome = true) ∧
    ((aget fxUVr1.1.adj "u" []).contains "v" = true) ∧
    PKOpt.add_dependency fxOracle fxUVr1.1 "u" "v" = (fxUVr1.1, .ok false) :=
  ⟨by decide, by decide, by decide, by decide,
    c7_idempotent_edge_amended.1 fxOracle fxC7base "u" "v" (by decide) (by decide)
      (by decide) (by decide),
    by decide, by decide, by decide,
    c7_idempotent_edge_amended.2 fxOracle fxUVr1.1 "u" "v" (by decide) (by decide)
      (by decide)⟩

/-- C8, counterexample: in the chain g→u→v with u BLOCKED (by g) and v
CRITICAL, `calculate_schedule()` emits v with `start_time = 0` although
v's only predecessor u ends at time 2 — the priority heap pops v before
u because the initial frontier counts only OPEN predecessors, so
`start_time` is not the maximum `end_time` of the predecessors. -/
theorem c8_schedule_counterexample :
    aget fxSched.preds "v" [] = ["u"] ∧
    (entryFor fxSchedR.2.1 "v").map ScheduleEntry.start_time = some 0 ∧
    (entryFor fxSchedR.2.1 "u").map ScheduleEntry.end_time = some 2 ∧
    (some 0 : Option Nat) ≠ some 2 := by
  refine ⟨by decide, by decide, by decide, by decide⟩

/-- C9: `GateEvaluator.is_open(kind, id)` returns `True` and raises
nothing whenever the kind or the id is `None` or empty — a task with a
gate kind but an absent/empty id is treated as having no gate. -/
theorem c9_gate_falsy_open (oracle : TimerOracle) (approvals : List String)
    (ty id : Option String) (h : (optFalsy ty || optFalsy id) = true) :
    GateEvaluator.is_open oracle approvals ty id = .ok true := by
  unfold GateEvaluator.is_open
  simp [h]

/-- C9, witness: kind `"human"` with the empty id is gate-open and
error-free. -/
theorem c9_gate_falsy_open_witness :
    ((optFalsy (some "human") || optFalsy (some "")) = true) ∧
    GateEvaluator.is_open fxOracle [] (some "human") (some "") = .ok true :=
  ⟨by decide, c9_gate_falsy_open fxOracle [] (some "human") (some "") (by decide)⟩

/-- C10, counterexample: the optimized scheduler accepts the self-loop
`add_dependency(x, x)` (no self-loop guard, and the rank check
`ranks[x] > ranks[x]` is false, skipping the cycle test); afterwards
`topological_sort()` returns the empty list — the registered task `x`
appears zero times, not once. -/
theorem c10_topo_counterexample :
    fxLoop.2 = .ok true ∧
    fxLoop.1.tasks.map Task.name = ["x"] ∧
    (PKOpt.topological_sort fxLoop.1).2 = [] ∧
    ([] : List String).count "x" = 0 := by
  refine ⟨by decide, by decide, by decide, by decide⟩

/-- C10, amended: on every scheduler state of either class whose graph
structures are mutually consistent (`GraphWF`), whose in-degree cache is
coherent (`CacheOK`), and whose dependency graph is acyclic (witnessed
by a rank function increasing along every edge), `topological_sort()`
emits each registered task name exactly once — including BLOCKED,
IN_PROGRESS and CLOSED tasks — and no unregistered name.  (The original
"for every scheduler state" fails: the optimized class accepts the
self-loop of `fxLoop`, after which `topological_sort()` drops the
task.) -/
theorem c10_topo_amended (s : PK.Scheduler) (s2 : PKOpt.Scheduler)
    (hWF : GraphWF s.tasks s.adj s.preds)
    (hC : CacheOK s.tasks s.preds s.indegree_cache s.indegree_valid)
    (f : String → Nat) (hf : ∀ p ∈ s.adj, ∀ v ∈ p.2, f p.1 < f v)
    (hWF2 : GraphWF s2.tasks s2.adj s2.preds)
    (hC2 : CacheOK s2.tasks s2.preds s2.indegree_cache s2.indegree_valid)
    (g : String → Nat) (hg : ∀ p ∈ s2.adj, ∀ v ∈ p.2, g p.1 < g v) :
    (∀ n, (PK.topological_sort s).2.count n =
      if n ∈ s.tasks.map Task.name then 1 else 0) ∧
    (∀ n, (PKOpt.topological_sort s2).2.count n =
      if n ∈ s2.tasks.map Task.name then 1 else 0) :=
  ⟨fun n => pk_topological_sort_count s hWF hC f hf n,
   fun n => pkopt_topological_sort_count s2 hWF2 hC2 g hg n⟩

/-- C10, witness: the base chain `A→B→C` (with `B`, `C` BLOCKED) and the
optimized two-task state with edge `u→v` satisfy the hypotheses, and
each name is emitted exactly once. -/
theorem c10_topo_amended_witness :
    GraphWF fxChain.tasks fxChain.adj fxChain.preds ∧
    CacheOK fxChain.tasks fxChain.preds fxChain.indegree_cache
      fxChain.indegree_valid ∧
    GraphWF fxUVr1.1.tasks fxUVr1.1.adj fxUVr1.1.preds ∧
    CacheOK fxUVr1.1.tasks fxUVr1.1.preds fxUVr1.1.indegree_cache
      fxUVr1.1.indegree_valid ∧
    ((∀ n, (PK.topological_sort fxChain).2.count n =
        if n ∈ fxChain.tasks.map Task.name then 1 else 0) ∧
     (∀ n, (PKOpt.topological_sort fxUVr1.1).2.count n =
        if n ∈ fxUVr1.1.tasks.map Task.name then 1 else 0)) :=
  ⟨by decide, by decide, by decide, by decide,
   c10_topo_amended fxChain fxUVr1.1 (by decide) (by decide)
     (fun n => if n = "A" then 0 else if n = "B" then 1 else 2) (by decide)
     (by decide) (by decide)
     (fun n => if n = "u" then 0 else 1) (by decide)⟩

/-- C8, amended (for `scheduler.py`'s `PearceKellyScheduler`): on every
consistent, cache-coherent, acyclic state in which every task is OPEN,
`calculate_schedule()` emits exactly one entry per registered task, each
entry copies its task's static `duration`, integer `priority` 0..4,
`estimated_tokens` and `status`, satisfies
`end_time = start_time + duration` and starts at the maximum `end_time`
of its predecessors (0 when it has none), the emitted list is sorted by
`(start_time, priority)`, and the token total sums `estimated_tokens`
over all tasks.  (Unconditionally the start-time clause fails — see the
counterexample — and `scheduler_optimized.py`'s `calculate_schedule`
follows a different contract entirely: sequential start times, priority
serialized by name, no sort and no token total.) -/
theorem c8_schedule_amended (s : PK.Scheduler)
    (hWF : GraphWF s.tasks s.adj s.preds)
    (hC : CacheOK s.tasks s.preds s.indegree_cache s.indegree_valid)
    (hOpen : ∀ t ∈ s.tasks, t.status = TaskStatus.OPEN)
    (f : String → Nat) (hf : ∀ p ∈ s.adj, ∀ v ∈ p.2, f p.1 < f v) :
    ((PK.calculate_schedule s).2.1.map ScheduleEntry.task_name).Perm
      (s.tasks.map Task.name) ∧
    (∀ e ∈ (PK.calculate_schedule s).2.1, ∃ t ∈ s.tasks, t.name = e.task_name ∧
      e.duration = t.duration ∧ e.priority = t.priority.value ∧
      e.estimated_tokens = t.estimated_tokens ∧ e.status = t.status ∧
      e.end_time = e.start_time + t.duration ∧
      e.start_time = predMaxEnd (PK.calculate_schedule s).2.1
        (aget s.preds e.task_name [])) ∧
    (PK.calculate_schedule s).2.1.Pairwise
      (fun a b => pairLe (schedKey a) (schedKey b) = true) ∧
    (PK.calculate_schedule s).2.2 = (s.tasks.map Task.estimated_tokens).sum := by
  obtain ⟨hts, has⟩ := pk_topological_sort_state s hC
  obtain ⟨hndO, hmemO, hordO⟩ := pk_order_spec s hWF hC hOpen f hf
  have hcs : PK.calculate_schedule s =
      ((PK.topological_sort s).1,
       stableSortBy (fun a b => pairLe (schedKey a) (schedKey b))
         ((PK.topological_sort s).2.foldl (PK.schedStep s.tasks s.adj)
           ([], 0, (PK.topological_sort s).2.map (fun n => (n, 0)))).1,
       ((PK.topological_sort s).2.foldl (PK.schedStep s.tasks s.adj)
         ([], 0, (PK.topological_sort s).2.map (fun n => (n, 0)))).2.1) := by
    unfold PK.calculate_schedule
    dsimp only
    rw [hts, has]
  rw [hcs]
  dsimp only
  have hS := schedFold_spec hWF hndO hmemO hordO
  have hnamesF : (((PK.topological_sort s).2.foldl (PK.schedStep s.tasks s.adj)
      ([], 0, (PK.topological_sort s).2.map (fun n => (n, 0)))).1.map
        ScheduleEntry.task_name) = (PK.topological_sort s).2 := hS.names
  have hpermN : ((PK.topological_sort s).2).Perm (s.tasks.map Task.name) :=
    (hndO.subperm (fun a ha => (hmemO a).mp ha)).antisymm
      (hWF.1.subperm (fun a ha => (hmemO a).mpr ha))
  have hperm_se := stableSortBy_perm
    (fun a b => pairLe (schedKey a) (schedKey b))
    ((PK.topological_sort s).2.foldl (PK.schedStep s.tasks s.adj)
      ([], 0, (PK.topological_sort s).2.map (fun n => (n, 0)))).1
  have hnodupN : ((((PK.topological_sort s).2.foldl (PK.schedStep s.tasks s.adj)
      ([], 0, (PK.topological_sort s).2.map (fun n => (n, 0)))).1).map
        ScheduleEntry.task_name).Nodup := by
    rw [hnamesF]
    exact hndO
  refine ⟨?_, ?_, ?_, ?_⟩
  · refine (hperm_se.map ScheduleEntry.task_name).trans ?_
    rw [hnamesF]
    exact hpermN
  · intro e he
    have heF := (mem_stableSortBy
      (fun a b => pairLe (schedKey a) (schedKey b)) _ e).mp he
    obtain ⟨t, ht, hname, hdur, hpri, hest, hstat, hend, hstart⟩ :=
      hS.entry_fields e heF
    refine ⟨t, ht, hname, hdur, hpri, hest, hstat, hend, ?_⟩
    rw [hstart]
    exact predMaxEnd_congr _ _ (aget s.preds e.task_name [])
      (fun p _ => entryEnd_perm _ _ hperm_se.symm hnodupN p)
  · exact stableSortBy_pairwise (fun a b => pairLe (schedKey a) (schedKey b))
      (fun a b => pairLe_total (schedKey a) (schedKey b))
      (fun a b c h1 h2 => pairLe_trans h1 h2) _
  · rw [hS.total]
    have hmc : (((PK.topological_sort s).2.foldl (PK.schedStep s.tasks s.adj)
        ([], 0, (PK.topological_sort s).2.map (fun n => (n, 0)))).1.map
          ScheduleEntry.estimated_tokens) =
        ((((PK.topological_sort s).2.foldl (PK.schedStep s.tasks s.adj)
          ([], 0, (PK.topological_sort s).2.map (fun n => (n, 0)))).1.map
            ScheduleEntry.task_name).map (tokOf s.tasks)) := by
      rw [List.map_map]
      refine List.map_congr_left (fun e he => ?_)
      obtain ⟨t, ht, hname, -, -, hest, -, -, -⟩ := hS.entry_fields e he
      show e.estimated_tokens = tokOf s.tasks e.task_name
      rw [hest, ← hname, tokOf_entry hWF.1 ht]
    have hp2 : ((((PK.topological_sort s).2.foldl (PK.schedStep s.tasks s.adj)
        ([], 0, (PK.topological_sort s).2.map (fun n => (n, 0)))).1.map
          ScheduleEntry.task_name)).Perm (s.tasks.map Task.name) := by
      rw [hnamesF]
      exact hpermN
    have hlast : (s.tasks.map Task.name).map (tokOf s.tasks) =
        s.tasks.map Task.estimated_tokens := by
      rw [List.map_map]
      refine List.map_congr_left (fun t ht => ?_)
      show tokOf s.tasks t.name = t.estimated_tokens
      exact tokOf_entry hWF.1 ht
    rw [hmc, (hp2.map (tokOf s.tasks)).sum_eq, hlast]

/-- C8, witness: on the two-task state with the edge `u→v` and both
tasks OPEN, the schedule places `u` at `[0, 1)`, `v` at `[1, 2)`, sorts
them and totals 2000 tokens. -/
theorem c8_schedule_amended_witness :
    GraphWF fxC8art.tasks fxC8art.adj fxC8art.preds ∧
    CacheOK fxC8art.tasks fxC8art.preds fxC8art.indegree_cache
      fxC8art.indegree_valid ∧
    (∀ t ∈ fxC8art.tasks, t.status = TaskStatus.OPEN) ∧
    (((PK.calculate_schedule fxC8art).2.1.map ScheduleEntry.task_name).Perm
        (fxC8art.tasks.map Task.name) ∧
     (∀ e ∈ (PK.calculate_schedule fxC8art).2.1, ∃ t ∈ fxC8art.tasks,
        t.name = e.task_name ∧ e.duration = t.duration ∧
        e.priority = t.priority.value ∧
        e.estimated_tokens = t.estimated_tokens ∧ e.status = t.status ∧
        e.end_time = e.start_time + t.duration ∧
        e.start_time = predMaxEnd (PK.calculate_schedule fxC8art).2.1
          (aget fxC8art.preds e.task_name [])) ∧
     (PK.calculate_schedule fxC8art).2.1.Pairwise
        (fun a b => pairLe (schedKey a) (schedKey b) = true) ∧
     (PK.calculate_schedule fxC8art).2.2 =
        (fxC8art.tasks.map Task.estimated_tokens).sum) :=
  ⟨by decide, by decide, by decide,
   c8_schedule_amended fxC8art (by decide) (by decide) (by decide)
     (fun n => if n = "u" then 0 else 1) (by decide)⟩

/-- C6, counterexample: register `B` then `A` with equal priorities and
equal `created_at`; both are ready with identical sort keys, yet
`compute_ready_tasks()` returns them as `[B, A]` although `"A" < "B"`
lexicographically — the sort key is only `(priority value, created_at)`,
with no name component. -/
theorem c6_tiebreak_counterexample :
    (PK.compute_ready_tasks fxOracle 0 fxTie 0).2 = .ok fxTieList ∧
    readyKey (fxTieTriple "B") = readyKey (fxTieTriple "A") ∧
    (fxTieTriple "B").1.name.data = ['B'] ∧
    (fxTieTriple "A").1.name.data = ['A'] ∧
    ('A' : Char) < 'B' := by
  refine ⟨by decide, by decide, by decide, by decide, by decide⟩

/-- C6, amended: the returned ready list of either scheduler class is
sorted by `(effective priority value, created_at)` — so equal effective
priorities do break on older `created_at` first — but tasks equal on
both keys keep their pre-sort order (Python's sort is stable and keys
carry no name): for `scheduler.py` with `limit = 0` the result is
exactly the stable sort of the task-iteration-order collection, and
every equal-key class of the result equals that of the collection, in
the same order — not lexicographic name order. -/
theorem c6_tiebreak_amended :
    (∀ (oracle : TimerOracle) (now : Nat) (s : PK.Scheduler) (limit : Nat)
        (s' : PK.Scheduler) (l : List (Task × Priority × Bool)),
      PK.compute_ready_tasks oracle now s limit = (s', .ok l) →
      l.Pairwise (fun a b => pairLe (readyKey a) (readyKey b) = true)) ∧
    (∀ (oracle : TimerOracle) (now : Nat) (s : PKOpt.Scheduler) (limit : Nat)
        (s' : PKOpt.Scheduler) (l : List (Task × Priority × Bool)),
      PKOpt.compute_ready_tasks oracle now s limit = (s', .ok l) →
      l.Pairwise (fun a b => pairLe (readyKey a) (readyKey b) = true)) ∧
    (∀ (oracle : TimerOracle) (now : Nat) (s : PK.Scheduler)
        (s' : PK.Scheduler) (l0 : List (Task × Priority × Bool)),
      PK.readyLoop oracle now s s.tasks [] = (s', .ok l0) →
      PK.compute_ready_tasks oracle now s 0 =
        (s', .ok (stableSortBy (fun a b => pairLe (readyKey a) (readyKey b)) l0)) ∧
      ∀ k : Nat × Nat,
        (stableSortBy (fun a b => pairLe (readyKey a) (readyKey b)) l0).filter
          (fun a => readyKey a == k) = l0.filter (fun a => readyKey a == k)) := by
  refine ⟨?_, ?_, ?_⟩
  · intro oracle now s limit s' l h
    unfold PK.compute_ready_tasks at h
    cases hR : PK.readyLoop oracle now s s.tasks [] with
    | mk s1 r =>
      rw [hR] at h
      cases r with
      | error e => simp at h
      | ok l0 =>
        simp only [Prod.mk.injEq] at h
        obtain ⟨-, hl⟩ := h
        injection hl with hl
        subst hl
        split
        · exact (stableSortBy_pairwise (fun a b => pairLe (readyKey a) (readyKey b))
            (fun a b => pairLe_total (readyKey a) (readyKey b))
            (fun a b c h1 h2 => pairLe_trans h1 h2) l0).sublist
            (List.take_sublist _ _)
        · exact stableSortBy_pairwise (fun a b => pairLe (readyKey a) (readyKey b))
            (fun a b => pairLe_total (readyKey a) (readyKey b))
            (fun a b c h1 h2 => pairLe_trans h1 h2) l0
  · intro oracle now s limit s' l h
    unfold PKOpt.compute_ready_tasks at h
    cases hS : (if !s.ready_valid || PKOpt.is_ready_cache_stale now s
        then PKOpt.rebuild_ready_set oracle now s else (s, Except.ok ())) with
    | mk s1 r =>
      rw [hS] at h
      cases r with
      | error e => simp at h
      | ok u =>
        simp only [Prod.mk.injEq] at h
        obtain ⟨-, hl⟩ := h
        injection hl with hl
        subst hl
        split
        · exact (stableSortBy_pairwise (fun a b => pairLe (readyKey a) (readyKey b))
            (fun a b => pairLe_total (readyKey a) (readyKey b))
            (fun a b c h1 h2 => pairLe_trans h1 h2) _).sublist
            (List.take_sublist _ _)
        · exact stableSortBy_pairwise (fun a b => pairLe (readyKey a) (readyKey b))
            (fun a b => pairLe_total (readyKey a) (readyKey b))
            (fun a b c h1 h2 => pairLe_trans h1 h2) _
  · intro oracle now s s' l0 hR
    constructor
    · unfold PK.compute_ready_tasks
      rw [hR]
      simp
    · intro k
      exact stableSortBy_filter_key readyKey k l0

/-- C6, witness for the amended theorem: on the tied fixture the ready
list is the stable sort of the collection `[B, A]`, it is pairwise
sorted, and its (single) equal-key class keeps registration order. -/
theorem c6_tiebreak_amended_witness :
    (PK.compute_ready_tasks fxOracle 0 fxTie 0 =
      ((PK.compute_ready_tasks fxOracle 0 fxTie 0).1, .ok fxTieList)) ∧
    fxTieList.Pairwise (fun a b => pairLe (readyKey a) (readyKey b) = true) ∧
    (PK.readyLoop fxOracle 0 fxTie fxTie.tasks [] =
      ((PK.readyLoop fxOracle 0 fxTie fxTie.tasks []).1, .ok fxTieList)) ∧
    (∀ k : Nat × Nat,
      (stableSortBy (fun a b => pairLe (readyKey a) (readyKey b))
        fxTieList).filter (fun a => readyKey a == k) =
        fxTieList.filter (fun a => readyKey a == k)) :=
  ⟨by decide,
    c6_tiebreak_amended.1 fxOracle 0 fxTie 0
      (PK.compute_ready_tasks fxOracle 0 fxTie 0).1 fxTieList (by decide),
    by decide,
    (c6_tiebreak_amended.2.2 fxOracle 0 fxTie
      (PK.readyLoop fxOracle 0 fxTie fxTie.tasks []).1 fxTieList (by decide)).2⟩

end Grava
